import Mathlib

/-!
# bwtool sax: rendering and option handling of `src/bwtool/sax.c`

A shallow embedding of `wigsax_fasta`, `make_initial_bed_list`, `wigsax_bed4`
and `bwtool_sax`, and the properties of their output.

Modelling conventions.

* A `char *` is the list of bytes addressable from the pointer on: the string,
  its NUL and whatever memory follows.  An access beyond that list halts the
  run with `Halt.outOfBounds`.
* `FILE *out` is the list of texts written so far, one entry per output call.
* `errAbort` halts the run with `Halt.errAbort`; the text written before it
  stays in the stream.
* Genome coordinates are non-negative C `int`s and are kept as `Nat`; a
  difference of two coordinates is an `Int`.
* Alphabet sizes are C `int`s, kept as `Int`: the arithmetic on them is
  reduced to 32 bits by `wrap_int`, as the machine does, and the increment of
  a loop variable at `INT_MAX`, after which the loop cannot end, halts the run
  with `Halt.intOverflow`.
* The collaborators that are not part of `sax.c` (the encoder, the track
  loader, the `%0.4f` conversion) are fields of `Ext`.
-/

namespace Sax

/-! ## Data model -/

/-- The C string terminator. -/
def NUL : Char := Char.ofNat 0

/-- A C `double`: a finite value `m * 2 ^ e`, an infinity, or a NaN. -/
inductive Dbl where
  | finite (m e : Int)
  | pinf
  | ninf
  | nan
deriving DecidableEq

/-- The comparison `x <= 0` on doubles (false for a NaN). -/
def Dbl.le_zero : Dbl → Bool
  | .finite m _ => decide (m ≤ 0)
  | .pinf => false
  | .ninf => true
  | .nan => false

/-- The constant `-DBL_MAX`. -/
def neg_DBL_MAX : Dbl := .finite (-(2 ^ 53 - 1)) 971

/-- Why a run stopped before its end. -/
inductive Halt where
  | errAbort (msg : String)
  | outOfBounds
  | intOverflow
deriving DecidableEq

/-- The output stream: the texts written so far, oldest first. -/
abbrev Stream := List (List Char)

/-- The outcome of a call that writes to a stream. -/
inductive Res (α : Type) where
  | done (out : Stream) (val : α)
  | halted (out : Stream) (why : Halt)
deriving DecidableEq

/-- The outcome of a call that writes nothing. -/
inductive Try (α : Type) where
  | ok (val : α)
  | stop (why : Halt)
deriving DecidableEq

/-- The stream as the call left it. -/
def Res.out {α : Type} : Res α → Stream
  | .done o _ => o
  | .halted o _ => o

/-- One output call appends its text to the stream. -/
def fprintf (out : Stream) (text : List Char) : Stream := out ++ [text]

/-- The conversion `%d` (also `%u` on a coordinate). -/
def fmt_d (n : Int) : List Char := (toString n).toList

/-- The conversion `%s`: the bytes before the first NUL. -/
def fmt_s (p : List Char) : List Char := p.takeWhile (fun c => c != NUL)

/-- The struct `perBaseWig`: one loaded segment of a region. -/
structure perBaseWig where
  chrom : List Char
  chromStart : Nat
  chromEnd : Nat
  data : List Dbl
deriving DecidableEq

/-- The struct `bed`, with `name` the bytes of its character array. -/
structure bed where
  chrom : List Char
  chromStart : Nat
  chromEnd : Nat
  name : List Char
deriving DecidableEq

/-- The collaborators of `sax.c`. -/
structure Ext where
  /-- The encoder; its result is the memory at the returned pointer. -/
  sax_from_array_force_window :
    List Dbl → Int → Int → Int → Dbl → Dbl → List Char
  /-- The track loader, applied to a region. -/
  perBaseWigLoadContinue : bed → List perBaseWig
  /-- The conversion `%0.4f`. -/
  fmt_f4 : Dbl → List Char

/-! ## `wigsax_fasta` -/

/-- The wrapping loop of `wigsax_fasta`, from index `i` on. -/
def fasta_loop (data_len : Int) (i : Nat) (sax : List Char) (out : Stream) :
    Res (List Char) :=
  if (i : Int) < data_len then
    match sax[i + 60]? with
    | none => .halted out .outOfBounds
    | some swap =>
      let sax1 := sax.set (i + 60) NUL
      let out1 := fprintf out (fmt_s (sax1.drop i) ++ ['\n'])
      let sax2 := sax1.set (i + 60) swap
      fasta_loop data_len (i + 60) sax2 out1
  else .done out sax
termination_by (data_len - i).toNat
decreasing_by omega

/-- The header line of a segment. -/
def fasta_header (pbw : perBaseWig) : List Char :=
  ['>'] ++ pbw.chrom ++ [':'] ++ fmt_d pbw.chromStart ++ ['-'] ++
    fmt_d pbw.chromEnd ++ ['\n']

/-- The loop of `wigsax_fasta` over the loaded segments. -/
def fasta_segments (x : Ext) (alpha window : Int) (mean std : Dbl) :
    List perBaseWig → Stream → Res Unit
  | [], out => .done out ()
  | pbw :: rest, out =>
    let data_len : Int := (pbw.chromEnd : Int) - pbw.chromStart
    let sax := x.sax_from_array_force_window pbw.data data_len alpha window mean std
    let out1 := fprintf out (fasta_header pbw)
    match fasta_loop data_len 0 sax out1 with
    | .halted o h => .halted o h
    | .done o _ => fasta_segments x alpha window mean std rest o

/-- The function `wigsax_fasta`. -/
def wigsax_fasta (x : Ext) (out : Stream) (region : bed) (alpha window : Int)
    (mean std : Dbl) : Res Unit :=
  let wigList := x.perBaseWigLoadContinue region
  fasta_segments x alpha window mean std wigList out

/-! ## `make_initial_bed_list` and `wigsax_bed4` -/

/-- The list primitive `slAddHead`. -/
def slAddHead {α : Type} (list : List α) (node : α) : List α := node :: list

/-- The list primitive `slReverse`. -/
def slReverse {α : Type} (list : List α) : List α := list.reverse

/-- The allocator `AllocArray` for a character array: zeroed memory; the
library refuses a size that is not positive (a negative `int` is a huge
`size_t`) with an `errAbort`. -/
def AllocArray (size : Int) : Try (List Char) :=
  if 0 < size then .ok (List.replicate size.toNat NUL)
  else .stop (.errAbort "needLargeMem: refused size")

/-- The largest C `int`. -/
def INT_MAX : Int := 2147483647

/-- The result of `int` arithmetic: the exact value reduced to the 32-bit
two's-complement range. -/
def wrap_int (v : Int) : Int := (v + 2147483648) % 4294967296 - 2147483648

/-- A store `p[i] = c` into a character array, `i` an `int`. -/
def poke (p : List Char) (i : Int) (c : Char) : Try (List Char) :=
  if 0 ≤ i ∧ i < p.length then .ok (p.set i.toNat c) else .stop .outOfBounds

/-- The loop of `make_initial_bed_list`: `todo` iterations are left, the next
one is for position `j`. -/
def initial_bed_loop (pbw : perBaseWig) (name_size : Int) :
    Nat → Nat → List bed → Try (List bed)
  | 0, _, bedList => .ok bedList
  | todo + 1, j, bedList =>
    match AllocArray name_size with
    | .stop h => .stop h
    | .ok fresh =>
      match poke fresh (name_size - 1) NUL with
      | .stop h => .stop h
      | .ok name =>
        let emptyBed : bed :=
          { chrom := pbw.chrom
            chromStart := pbw.chromStart + j
            chromEnd := pbw.chromStart + j + 1
            name := name }
        initial_bed_loop pbw name_size todo (j + 1) (slAddHead bedList emptyBed)

/-- The function `make_initial_bed_list`. -/
def make_initial_bed_list (pbw : perBaseWig) (name_size : Int) : Try (List bed) :=
  let data_len : Int := (pbw.chromEnd : Int) - pbw.chromStart
  match initial_bed_loop pbw name_size data_len.toNat 0 [] with
  | .stop h => .stop h
  | .ok bedList => .ok (slReverse bedList)

/-- The innermost loop of `wigsax_bed4`: the symbols of one encoding go to
column `col` of the names, from position `j` on. -/
def fill_column (sax : List Char) (col : Int) (data_len : Int) :
    Nat → List bed → Try (List bed)
  | _, [] => .ok []
  | j, b :: rest =>
    if (j : Int) < data_len then
      match sax[j]? with
      | none => .stop .outOfBounds
      | some c =>
        match poke b.name col c with
        | .stop h => .stop h
        | .ok name =>
          match fill_column sax col data_len (j + 1) rest with
          | .stop h => .stop h
          | .ok rest1 => .ok ({ b with name := name } :: rest1)
    else .ok (b :: rest)

/-- The loop `for (i = alphaS; i <= alphaE; i++)` of `wigsax_bed4`, from the
size `i` on.  The column `i - alphaS` is `int` arithmetic; at `i = INT_MAX` the
increment overflows, the loop cannot end, and the run halts there. -/
def sweep_loop (x : Ext) (pbw : perBaseWig) (data_len alphaS alphaE window : Int)
    (mean std : Dbl) (i : Int) (bedList : List bed) : Try (List bed) :=
  if i ≤ alphaE then
    let sax := x.sax_from_array_force_window pbw.data data_len i window mean std
    match fill_column sax (wrap_int (i - alphaS)) data_len 0 bedList with
    | .stop h => .stop h
    | .ok bedList1 =>
      if i < INT_MAX then
        sweep_loop x pbw data_len alphaS alphaE window mean std (i + 1) bedList1
      else .stop .intOverflow
  else .ok bedList
termination_by (alphaE + 1 - i).toNat
decreasing_by omega

/-- The loop of `wigsax_bed4` that collects the original values. -/
def collect_loop (data : List Dbl) : Nat → Nat → List Dbl → Try (List Dbl)
  | 0, _, datList => .ok datList
  | todo + 1, j, datList =>
    match data[j]? with
    | none => .stop .outOfBounds
    | some v => collect_loop data todo (j + 1) (slAddHead datList v)

/-- The loop `while ((bed = slPopHead(&bedList)) != NULL) slAddHead(&outBedList, bed)`. -/
def pop_loop : List bed → List bed → List bed
  | [], outBedList => outBedList
  | b :: bedList, outBedList => pop_loop bedList (slAddHead outBedList b)

/-- The names of one segment: `make_initial_bed_list` with the `int`
`alphaE - alphaS + 2`, then one column per alphabet size from `alphaS` to
`alphaE`. -/
def sweep_segment (x : Ext) (pbw : perBaseWig) (alphaS alphaE window : Int)
    (mean std : Dbl) : Try (List bed) :=
  match make_initial_bed_list pbw (wrap_int (wrap_int (alphaE - alphaS) + 2)) with
  | .stop h => .stop h
  | .ok bedList =>
    let data_len : Int := (pbw.chromEnd : Int) - pbw.chromStart
    sweep_loop x pbw data_len alphaS alphaE window mean std alphaS bedList

/-- The first loop of `wigsax_bed4`, over the loaded segments. -/
def bed4_segments (x : Ext) (alphaS alphaE window : Int) (mean std : Dbl)
    (outWig : Bool) : List perBaseWig → List bed → List Dbl → Try (List bed × List Dbl)
  | [], outBedList, datList => .ok (outBedList, datList)
  | pbw :: rest, outBedList, datList =>
    match sweep_segment x pbw alphaS alphaE window mean std with
    | .stop h => .stop h
    | .ok bedList =>
      let data_len : Int := (pbw.chromEnd : Int) - pbw.chromStart
      match (if outWig then collect_loop pbw.data data_len.toNat 0 datList
             else .ok datList) with
      | .stop h => .stop h
      | .ok datList1 =>
        bed4_segments x alphaS alphaE window mean std outWig rest
          (pop_loop bedList outBedList) datList1

/-- The library call `bedOutputN(bed, 4, out, '\t', lastSep)`. -/
def bedOutputN4 (out : Stream) (b : bed) (lastSep : Char) : Stream :=
  fprintf out (b.chrom ++ ['\t'] ++ fmt_d b.chromStart ++ ['\t'] ++ fmt_d b.chromEnd ++
    ['\t'] ++ fmt_s b.name ++ [lastSep])

/-- The output loop of `wigsax_bed4`. -/
def bed4_output (x : Ext) (outWig : Bool) : List bed → List Dbl → Stream → Res Unit
  | [], _, out => .done out ()
  | b :: rest, oneDub, out =>
    let out1 := bedOutputN4 out b (if outWig then '\t' else '\n')
    if outWig then
      match oneDub with
      | [] => .halted out1 (.errAbort "data inconsistency. programmer error\n")
      | val :: next => bed4_output x outWig rest next (fprintf out1 (x.fmt_f4 val ++ ['\n']))
    else bed4_output x outWig rest oneDub out1

/-- The function `wigsax_bed4`; `outWig` is `optionExists("addWigOut")`. -/
def wigsax_bed4 (x : Ext) (outWig : Bool) (out : Stream) (region : bed)
    (alphaS alphaE window : Int) (mean std : Dbl) : Res Unit :=
  let wigList := x.perBaseWigLoadContinue region
  match bed4_segments x alphaS alphaE window mean std outWig wigList [] [] with
  | .stop h => .halted out h
  | .ok (outBedList, datList) =>
    bed4_output x outWig (slReverse outBedList) (slReverse datList) out

/-! ## `bwtool_sax` -/

/-- The command line as `bwtool_sax` sees it: each option is absent or holds
the value its text converts to, and `sections` are the regions of the opened
track. -/
structure Args where
  /-- The positional alphabet size (`none` for a NULL `alpha_s`). -/
  alpha_s : Option Nat
  iterate_start : Option Nat
  iterate_end : Option Nat
  sax_window : Option Nat
  /-- The option `-mean`: absent, the text `mean`, or a number. -/
  mean : Option (Option Dbl)
  std : Option Dbl
  force_bed4 : Bool
  addWigOut : Bool
  sections : List bed

/-- The conversion of an `unsigned` to `int`. -/
def to_int (u : Nat) : Int := if u < 2 ^ 31 then (u : Int) else (u : Int) - 2 ^ 32

/-- How a run of `bwtool_sax` ends: by an `errAbort` of the option checks,
before the output file is opened, or with the output file opened. -/
inductive Outcome where
  | config_error (msg : String)
  | opened (res : Res Unit)
deriving DecidableEq

/-- The option checks of `bwtool_sax`: the message of the `errAbort`, if any. -/
def check_options (do_mean do_std : Bool) (std : Dbl) : Option String :=
  if do_mean || do_std then
    if !do_std || !do_mean then
      some "if -mean is specified, -std is required, and vice versa"
    else if std.le_zero then some "-std must be > 0"
    else none
  else none

/-- The first header line. -/
def header_created : List Char := "# created using wigsax version Sept2011.\n".toList

/-- The header line of the sequential output. -/
def header_alpha (alpha : Int) : List Char :=
  "# alphabet size = ".toList ++ fmt_d alpha ++ ['\n']

/-- The header line of the tabular output. -/
def header_range (itStart itEnd : Nat) : List Char :=
  "# alphabet size = ".toList ++ fmt_d (to_int itStart) ++ ['-'] ++
    fmt_d (to_int itEnd) ++ ['\n']

/-- The loop of `bwtool_sax` over `mb->sections`; `first` holds for the head
of the list, where `bed == mb->sections`. -/
def sections_loop (x : Ext) (outWig force_bed4 : Bool) (alpha : Int)
    (itStart itEnd window : Nat) (mean std : Dbl) : Bool → List bed → Stream → Res Unit
  | _, [], out => .done out ()
  | first, b :: rest, out =>
    let out1 := if first then fprintf out header_created else out
    if itStart == itEnd && !force_bed4 then
      let out2 := if first then fprintf out1 (header_alpha alpha) else out1
      match wigsax_fasta x out2 b alpha (to_int window) mean std with
      | .halted o h => .halted o h
      | .done o _ =>
        sections_loop x outWig force_bed4 alpha itStart itEnd window mean std false rest o
    else
      let out2 := if first then fprintf out1 (header_range itStart itEnd) else out1
      match wigsax_bed4 x outWig out2 b (to_int itStart) (to_int itEnd) (to_int window)
          mean std with
      | .halted o h => .halted o h
      | .done o _ =>
        sections_loop x outWig force_bed4 alpha itStart itEnd window mean std false rest o

/-- The variable `alpha`: the positional alphabet size, 8 without one. -/
def Args.alpha (a : Args) : Int :=
  match a.alpha_s with
  | some v => to_int v
  | none => 8

/-- The variable `itStart`: `-iterate-start`, by default the positional size. -/
def Args.itStart (a : Args) : Nat := a.iterate_start.getD (a.alpha_s.getD 8)

/-- The variable `itEnd`: `-iterate-end`, by default the positional size. -/
def Args.itEnd (a : Args) : Nat := a.iterate_end.getD (a.alpha_s.getD 8)

/-- The variable `window`. -/
def Args.window (a : Args) : Nat := a.sax_window.getD 0

/-- The variable `mean`: `-DBL_MAX` unless `-mean` holds a number. -/
def Args.meanVal (a : Args) : Dbl :=
  match a.mean with
  | some (some v) => v
  | _ => neg_DBL_MAX

/-- The variable `std`: zero unless `-std` is given. -/
def Args.stdVal (a : Args) : Dbl := a.std.getD (.finite 0 0)

/-- The function `bwtool_sax`, from the opened track on. -/
def bwtool_sax (x : Ext) (a : Args) : Outcome :=
  let do_std : Bool := a.std.isSome
  let do_mean : Bool := a.mean.isSome
  match check_options do_mean do_std a.stdVal with
  | some msg => .config_error msg
  | none =>
    .opened (sections_loop x a.addWigOut a.force_bed4 a.alpha a.itStart a.itEnd a.window
      a.meanVal a.stdVal true a.sections [])

/-! ## Specification-level definitions -/

/-- The slice `s[60k .. min(60k+60, n))` of a symbol string. -/
def slice60 (s : List Char) (k : Nat) : List Char := (s.drop (60 * k)).take 60

/-- The symbol string cut into `ceil(n/60)` consecutive slices. -/
def wrapped (s : List Char) : List (List Char) :=
  (List.range ((s.length + 59) / 60)).map (slice60 s)

/-- The encoder's result for the segment `pbw` is the NUL-terminated string `s`,
one symbol per base, and the farthest byte the wrapping loop touches,
`sax[60 * ceil(n/60)]`, is addressable: `rest` is the memory after the NUL. -/
def EncodesAs (x : Ext) (alpha window : Int) (mean std : Dbl) (pbw : perBaseWig)
    (s : List Char) : Prop :=
  (s.length : Int) = (pbw.chromEnd : Int) - pbw.chromStart ∧ (∀ c ∈ s, c ≠ NUL) ∧
    ∃ rest, 60 * ((s.length + 59) / 60) ≤ s.length + rest.length ∧
      x.sax_from_array_force_window pbw.data ((pbw.chromEnd : Int) - pbw.chromStart)
        alpha window mean std = s ++ NUL :: rest

/-- The text `wigsax_fasta` is to write for a segment whose symbols are `s`. -/
def fasta_text (pbw : perBaseWig) (s : List Char) : Stream :=
  fasta_header pbw :: (wrapped s).map (fun l => l ++ ['\n'])

/-- The length `chromEnd - chromStart` of a segment, as a loop count. -/
def seg_len (pbw : perBaseWig) : Nat := ((pbw.chromEnd : Int) - pbw.chromStart).toNat

/-- The encoding of a segment with alphabet size `a`. -/
def encoding (x : Ext) (pbw : perBaseWig) (a window : Int) (mean std : Dbl) : List Char :=
  x.sax_from_array_force_window pbw.data ((pbw.chromEnd : Int) - pbw.chromStart) a window
    mean std

/-- The `j`-th symbol of the encoding with alphabet size `a`. -/
def symbol_at (x : Ext) (pbw : perBaseWig) (window : Int) (mean std : Dbl) (a : Int)
    (j : Nat) : Char :=
  (encoding x pbw a window mean std).getD j NUL

/-- The name array of position `j` once the first `c` columns are filled. -/
def filled_name (x : Ext) (pbw : perBaseWig) (alphaS window : Int) (mean std : Dbl)
    (size c j : Nat) : List Char :=
  (List.range c).map (fun k : Nat => symbol_at x pbw window mean std (alphaS + (k : Int)) j) ++
    List.replicate (size - c) NUL

/-- The record of position `j` with a given name array. -/
def bed_at (pbw : perBaseWig) (name : Nat → List Char) (j : Nat) : bed :=
  { chrom := pbw.chrom, chromStart := pbw.chromStart + j,
    chromEnd := pbw.chromStart + j + 1, name := name j }

/-- The symbol field of position `j`: one symbol per alphabet size from
`alphaS` to `alphaE`, in ascending order. -/
def symbol_field (x : Ext) (pbw : perBaseWig) (alphaS alphaE window : Int) (mean std : Dbl)
    (j : Nat) : List Char :=
  (List.range (alphaE + 1 - alphaS).toNat).map
    (fun k : Nat => symbol_at x pbw window mean std (alphaS + (k : Int)) j)

/-- Every encoding of the segment with a size from `alphaS` to `alphaE` holds
one byte per base at least. -/
def Readable (x : Ext) (alphaS alphaE window : Int) (mean std : Dbl) (pbw : perBaseWig) :
    Prop :=
  ∀ a : Int, alphaS ≤ a → a ≤ alphaE →
    seg_len pbw ≤ (encoding x pbw a window mean std).length

/-- The range involves no `int` overflow: `alphaS` is an `int`, the increment
of the loop variable stays below `INT_MAX`, and the name size
`alphaE - alphaS + 2` is at most `INT_MAX`.  Every range of sizes within
`[2, 20]` is such. -/
def IntFits (alphaS alphaE : Int) : Prop :=
  -2147483648 ≤ alphaS ∧ alphaE < INT_MAX ∧ alphaE - alphaS + 2 ≤ INT_MAX

/-- The abort of the output loop of `wigsax_bed4`. -/
def inconsistency : Halt := .errAbort "data inconsistency. programmer error\n"

/-- The positional fields of a record: name of the chromosome, start, end. -/
def bed.key (b : bed) : List Char × Nat × Nat := (b.chrom, b.chromStart, b.chromEnd)

/-- The positional fields of the row of position `j` of a segment. -/
def key_at (pbw : perBaseWig) (j : Nat) : List Char × Nat × Nat :=
  (pbw.chrom, pbw.chromStart + j, pbw.chromStart + j + 1)

/-- A call either gives a value with the property `P` or stops for a reason
other than the `data inconsistency` abort. -/
def Try.sound {α : Type} (r : Try α) (P : α → Prop) : Prop :=
  match r with
  | .ok v => P v
  | .stop h => h ≠ inconsistency

/-- The records of a segment after the sweep, in position order. -/
def swept_beds (x : Ext) (alphaS alphaE window : Int) (mean std : Dbl) (pbw : perBaseWig) :
    List bed :=
  (List.range (seg_len pbw)).map
    (bed_at pbw (fun j => symbol_field x pbw alphaS alphaE window mean std j ++ [NUL]))

/-- The original values of a segment, in position order. -/
def seg_values (pbw : perBaseWig) : List Dbl :=
  (List.range (seg_len pbw)).map (fun j => pbw.data.getD j (.finite 0 0))

/-- The text of a tabular row: the four fields separated by tabs, then `lastSep`. -/
def row_line (chrom : List Char) (start stop : Nat) (field : List Char) (lastSep : Char) :
    List Char :=
  chrom ++ ['\t'] ++ fmt_d start ++ ['\t'] ++ fmt_d stop ++ ['\t'] ++ field ++ [lastSep]

/-- The rows of a region paired with their original values. -/
def bed4_rows (x : Ext) (alphaS alphaE window : Int) (mean std : Dbl)
    (segs : List perBaseWig) : List (bed × Dbl) :=
  segs.flatMap (fun pbw => (List.range (seg_len pbw)).map (fun j =>
    (bed_at pbw (fun j => symbol_field x pbw alphaS alphaE window mean std j ++ [NUL]) j,
      pbw.data.getD j (.finite 0 0))))

/-- The text of the tabular rendering of loaded segments: for every segment in
order and every position `j` of it in ascending order, the row of the
chromosome name, `chromStart + j`, `chromStart + j + 1` and the symbol field,
followed, when `outWig` holds, by the original value `data[j]`. -/
def bed4_text (x : Ext) (outWig : Bool) (alphaS alphaE window : Int) (mean std : Dbl)
    (segs : List perBaseWig) : Stream :=
  segs.flatMap (fun pbw => (List.range (seg_len pbw)).flatMap (fun j =>
    row_line pbw.chrom (pbw.chromStart + j) (pbw.chromStart + j + 1)
        (fmt_s (symbol_field x pbw alphaS alphaE window mean std j ++ [NUL]))
        (if outWig then '\t' else '\n') ::
      (if outWig then [x.fmt_f4 (pbw.data.getD j (.finite 0 0)) ++ ['\n']] else [])))

/-- A sample environment: the encoder gives every base the `a`-th lower-case
letter, a region loads as one segment of values `0, 1, 2, ...`, and a value
prints as its mantissa. -/
def sample_ext : Ext :=
  { sax_from_array_force_window := fun _ len a _ _ _ =>
      List.replicate len.toNat (Char.ofNat (96 + a.toNat)) ++ NUL :: List.replicate 59 NUL
    perBaseWigLoadContinue := fun r =>
      [{ chrom := r.chrom, chromStart := r.chromStart, chromEnd := r.chromEnd,
         data := (List.range (r.chromEnd - r.chromStart)).map (fun i => Dbl.finite i 0) }]
    fmt_f4 := fun v =>
      match v with
      | .finite m _ => fmt_d m ++ ".0000".toList
      | _ => "nan".toList }

/-- A sample region of three bases. -/
def sample_region : bed := { chrom := "chr1".toList, chromStart := 5, chromEnd := 8, name := [] }

/-- The renderers run over the regions in order, with no header logic: the
sequential one when `seq` holds, the tabular one otherwise. -/
def render_sections (x : Ext) (outWig seq : Bool) (alpha : Int)
    (itStart itEnd window : Nat) (mean std : Dbl) : List bed → Stream → Res Unit
  | [], out => .done out ()
  | b :: rest, out =>
    match (if seq then wigsax_fasta x out b alpha (to_int window) mean std
           else wigsax_bed4 x outWig out b (to_int itStart) (to_int itEnd) (to_int window)
             mean std) with
    | .halted o h => .halted o h
    | .done o _ => render_sections x outWig seq alpha itStart itEnd window mean std rest o

/-- The file was opened for writing. -/
def Outcome.file_opened : Outcome → Bool
  | .config_error _ => false
  | .opened _ => true

/-- The text written to the output file. -/
def Outcome.written : Outcome → Stream
  | .config_error _ => []
  | .opened res => res.out

/-- The run is sequential: a single alphabet size and no `-force-bed4`. -/
def Args.seq (a : Args) : Bool := a.itStart == a.itEnd && !a.force_bed4

/-- The second header line of a run. -/
def Args.header2 (a : Args) : List Char :=
  if a.seq then header_alpha a.alpha else header_range a.itStart a.itEnd

/-- The number of `#` lines in the text written by a run. -/
def comment_lines (o : Outcome) : Nat :=
  (o.written.filter (fun l => l.head? == some '#')).length

/-- A sample command line: alphabet size 8 over the sample region. -/
def sample_args : Args :=
  { alpha_s := some 8, iterate_start := none, iterate_end := none, sax_window := none,
    mean := none, std := none, force_bed4 := false, addWigOut := false,
    sections := [sample_region] }

/-- The segment the sample region loads as. -/
def sample_segment : perBaseWig :=
  { chrom := "chr1".toList, chromStart := 5, chromEnd := 8,
    data := [.finite 0 0, .finite 1 0, .finite 2 0] }

/-- A sample command line with `-iterate-start=5 -iterate-end=4`. -/
def args_reversed : Args :=
  { alpha_s := some 8, iterate_start := some 5, iterate_end := some 4, sax_window := none,
    mean := none, std := none, force_bed4 := false, addWigOut := false,
    sections := [sample_region] }

/-- A sample command line with `-iterate-start=5 -iterate-end=5` next to the
positional alphabet size 8. -/
def args_equal : Args :=
  { alpha_s := some 8, iterate_start := some 5, iterate_end := some 5, sax_window := none,
    mean := none, std := none, force_bed4 := false, addWigOut := false,
    sections := [sample_region] }

/-- A sample command line with the positional alphabet size 1. -/
def args_small : Args :=
  { alpha_s := some 1, iterate_start := none, iterate_end := none, sax_window := none,
    mean := none, std := none, force_bed4 := false, addWigOut := false,
    sections := [sample_region] }

/-- A sample environment whose encoder returns exactly the string and its NUL:
a buffer of `n + 1` bytes that holds `n` symbols `a`, whatever the alphabet
size. -/
def tight_ext : Ext :=
  { sax_from_array_force_window := fun _ len _ _ _ _ =>
      List.replicate len.toNat 'a' ++ [NUL]
    perBaseWigLoadContinue := fun r =>
      [{ chrom := r.chrom, chromStart := r.chromStart, chromEnd := r.chromEnd,
         data := List.replicate (r.chromEnd - r.chromStart) (.finite 0 0) }]
    fmt_f4 := fun _ => "0.0000".toList }

/-- A sample region of 130 bases. -/
def region_130 : bed :=
  { chrom := "chr1".toList, chromStart := 0, chromEnd := 130, name := [] }

/-- A symbol string of 130 symbols. -/
def sample_130 : List Char := List.replicate 130 'a'

/-! ## Lemmas and theorems -/

/-! ### The wrapping loop of `wigsax_fasta` -/

theorem fmt_s_set_nul (u v : List Char) (hu : ∀ c ∈ u, c ≠ NUL) (d : Nat) :
    fmt_s ((u ++ NUL :: v).set d NUL) = u.take d := by
  induction u generalizing d with
  | nil => cases d <;> simp [fmt_s]
  | cons c u ih =>
    cases d with
    | zero => simp [fmt_s]
    | succ d =>
      have hc : c ≠ NUL := hu c (by simp)
      have := ih (fun c hc => hu c (by simp [hc])) d
      simp only [fmt_s] at this
      simp [fmt_s, hc, this]

theorem set_restore (l : List Char) (j : Nat) (a c : Char) (h : l[j]? = some c) :
    (l.set j a).set j c = l := by
  rw [List.set_set]
  apply List.ext_getElem?
  intro k
  rw [List.getElem?_set]
  by_cases hk : j = k
  · subst hk
    have : j < l.length := by
      rcases List.getElem?_eq_some.mp h with ⟨hlt, _⟩
      exact hlt
    simp [this, h]
  · simp [hk]

theorem fasta_loop_steps (s rest : List Char) (hs : ∀ c ∈ s, c ≠ NUL) (m : Nat) :
    ∀ (k : Nat) (out : Stream), 60 * (k + m) ≤ s.length + rest.length →
      60 * (k + m) < s.length + 60 →
      fasta_loop s.length (60 * k) (s ++ NUL :: rest) out =
        fasta_loop s.length (60 * (k + m)) (s ++ NUL :: rest)
          (out ++ (List.range' k m).map (fun k => slice60 s k ++ ['\n'])) := by
  induction m with
  | zero => intro k out _ _; simp
  | succ m ih =>
    intro k out h1 h2
    rw [fasta_loop]
    have hlt : (((60 * k : Nat) : Int) < (s.length : Int)) := by omega
    have hin : 60 * k + 60 < (s ++ NUL :: rest).length := by
      simp; omega
    rw [if_pos hlt]
    have hget : (s ++ NUL :: rest)[60 * k + 60]? = some ((s ++ NUL :: rest)[60 * k + 60]) :=
      List.getElem?_eq_getElem hin
    rw [hget]
    simp only
    rw [set_restore _ _ _ _ hget]
    have hdrop : ((s ++ NUL :: rest).set (60 * k + 60) NUL).drop (60 * k)
        = ((s.drop (60 * k)) ++ NUL :: rest).set 60 NUL := by
      rw [List.drop_set]
      have : ¬ (60 * k + 60 < 60 * k) := by omega
      simp only [this, if_false]
      rw [List.drop_append_of_le_length (by omega)]
      congr 1
      omega
    rw [hdrop, fmt_s_set_nul _ _ (fun c hc => hs c (List.mem_of_mem_drop hc))]
    have := ih (k + 1) (fprintf out (List.take 60 (List.drop (60 * k) s) ++ ['\n']))
      (by omega) (by omega)
    rw [show 60 * (k + 1) = 60 * k + 60 by ring] at this
    rw [this]
    have e : k + 1 + m = k + (m + 1) := by omega
    simp [fprintf, List.range'_succ, slice60, e]

theorem fasta_loop_spec (s rest : List Char) (hs : ∀ c ∈ s, c ≠ NUL)
    (hrest : 60 * ((s.length + 59) / 60) ≤ s.length + rest.length) (out : Stream) :
    fasta_loop s.length 0 (s ++ NUL :: rest) out =
      .done (out ++ (wrapped s).map (fun l => l ++ ['\n'])) (s ++ NUL :: rest) := by
  have h := fasta_loop_steps s rest hs ((s.length + 59) / 60) 0 out (by omega) (by omega)
  rw [Nat.mul_zero] at h
  rw [h, fasta_loop]
  have : ¬ (((60 * (0 + (s.length + 59) / 60) : Nat) : Int) < (s.length : Int)) := by omega
  rw [if_neg this]
  simp [wrapped, List.range_eq_range', Function.comp_def]

theorem fasta_loop_overrun (s : List Char) (hs : ∀ c ∈ s, c ≠ NUL) (hn : s.length % 60 ≠ 0)
    (out : Stream) :
    fasta_loop s.length 0 (s ++ [NUL]) out =
      .halted (out ++ (List.range (s.length / 60)).map (fun k => slice60 s k ++ ['\n']))
        .outOfBounds := by
  have h := fasta_loop_steps s [] hs (s.length / 60) 0 out (by simp; omega) (by omega)
  rw [Nat.mul_zero] at h
  rw [h, fasta_loop]
  have hlt : (((60 * (0 + s.length / 60) : Nat) : Int) < (s.length : Int)) := by omega
  rw [if_pos hlt]
  have hnone : (s ++ [NUL])[60 * (0 + s.length / 60) + 60]? = none := by
    apply List.getElem?_eq_none
    simp
    omega
  rw [hnone]
  simp [List.range_eq_range']

theorem flatten_slices (s : List Char) (m : Nat) :
    ((List.range m).map (slice60 s)).flatten = s.take (60 * m) := by
  induction m with
  | zero => simp
  | succ m ih =>
    rw [List.range_succ, List.map_append, List.flatten_append, ih]
    simp [slice60, Nat.mul_succ, List.take_add]

theorem wrapped_flatten (s : List Char) : (wrapped s).flatten = s := by
  rw [wrapped, flatten_slices]
  apply List.take_of_length_le
  omega

theorem wrapped_length (s : List Char) : (wrapped s).length = (s.length + 59) / 60 := by
  simp [wrapped]

theorem wrapped_get (s : List Char) (k : Nat) (hk : k < (s.length + 59) / 60) :
    (wrapped s)[k]? = some (slice60 s k) := by
  simp [wrapped, hk]

theorem slice60_length (s : List Char) (k : Nat) :
    (slice60 s k).length = min 60 (s.length - 60 * k) := by
  simp [slice60]

theorem fasta_segments_spec (x : Ext) (alpha window : Int) (mean std : Dbl)
    (sym : perBaseWig → List Char) (wigList : List perBaseWig) :
    ∀ out : Stream, (∀ pbw ∈ wigList, EncodesAs x alpha window mean std pbw (sym pbw)) →
      fasta_segments x alpha window mean std wigList out =
        .done (out ++ wigList.flatMap (fun pbw => fasta_text pbw (sym pbw))) () := by
  induction wigList with
  | nil => intro out _; simp [fasta_segments]
  | cons pbw rest ih =>
    intro out h
    obtain ⟨hlen, hnul, tail, htail, henc⟩ := h pbw (by simp)
    have hloop := fasta_loop_spec (sym pbw) tail hnul htail (fprintf out (fasta_header pbw))
    simp only [fasta_segments]
    rw [henc, ← hlen, hloop]
    simp only
    rw [ih _ (fun p hp => h p (by simp [hp]))]
    simp [fprintf, fasta_text, wrapped, List.range_eq_range', List.map_map, Function.comp_def]

/-- When the bytes that the wrapping loop touches after the NUL are
addressable, `wigsax_fasta` writes for every segment the header line
`>chrom:start-end` and then the `ceil(n/60)` slices `s[60k .. min(60k+60, n))`
of its symbol string, one per line and in order; all lines but the last hold
60 symbols, the last holds between 1 and 60, and the lines put together give
back `s`. -/
theorem wigsax_fasta_wraps (x : Ext) (out : Stream) (region : bed) (alpha window : Int)
    (mean std : Dbl) (sym : perBaseWig → List Char)
    (h : ∀ pbw ∈ x.perBaseWigLoadContinue region,
      EncodesAs x alpha window mean std pbw (sym pbw)) :
    wigsax_fasta x out region alpha window mean std =
        .done (out ++ (x.perBaseWigLoadContinue region).flatMap
          (fun pbw => fasta_header pbw :: (wrapped (sym pbw)).map (fun l => l ++ ['\n']))) ()
      ∧ ∀ s : List Char,
          (wrapped s).length = (s.length + 59) / 60 ∧
          (∀ k, k < (s.length + 59) / 60 →
            (wrapped s)[k]? = some ((s.take (min (60 * k + 60) s.length)).drop (60 * k))) ∧
          (∀ k, k + 1 < (s.length + 59) / 60 → ((wrapped s)[k]?.map List.length) = some 60) ∧
          (∀ k, k + 1 = (s.length + 59) / 60 →
            ∃ l, (wrapped s)[k]? = some l ∧ 1 ≤ l.length ∧ l.length ≤ 60) ∧
          (wrapped s).flatten = s := by
  refine ⟨?_, fun s => ⟨wrapped_length s, ?_, ?_, ?_, wrapped_flatten s⟩⟩
  · rw [wigsax_fasta]
    exact fasta_segments_spec x alpha window mean std sym _ out h
  · intro k hk
    rw [wrapped_get s k hk, slice60, List.drop_take]
    congr 1
    by_cases hle : 60 * k + 60 ≤ s.length
    · rw [Nat.min_eq_left hle]
      congr 1
      omega
    · rw [Nat.min_eq_right (by omega), List.take_of_length_le (by simp; omega),
        List.take_of_length_le (by simp)]
  · intro k hk
    rw [wrapped_get s k (by omega)]
    simp only [Option.map_some', slice60_length]
    congr 1
    omega
  · intro k hk
    refine ⟨slice60 s k, wrapped_get s k (by omega), ?_, ?_⟩ <;>
      rw [slice60_length] <;> omega

/-! ### The first loop of `wigsax_bed4` -/

theorem wrap_int_id (v : Int) (h1 : -2147483648 ≤ v) (h2 : v ≤ 2147483647) :
    wrap_int v = v := by
  unfold wrap_int
  omega

theorem name_size_fits (alphaS alphaE : Int) (hfit : IntFits alphaS alphaE)
    (hle : alphaS ≤ alphaE + 1) :
    wrap_int (wrap_int (alphaE - alphaS) + 2) = alphaE - alphaS + 2 := by
  obtain ⟨h1, h2, h3⟩ := hfit
  simp only [INT_MAX] at h2 h3
  rw [wrap_int_id (alphaE - alphaS) (by omega) (by omega),
    wrap_int_id (alphaE - alphaS + 2) (by omega) (by omega)]

theorem poke_ok (p : List Char) (i : Nat) (c : Char) (h : i < p.length) :
    poke p (i : Int) c = .ok (p.set i c) := by
  have h1 : (0 : Int) ≤ (i : Int) ∧ (i : Int) < (p.length : Int) := ⟨by omega, by omega⟩
  simp only [poke, if_pos h1, Int.toNat_ofNat]

theorem initial_bed_loop_spec (pbw : perBaseWig) (name_size : Int) (h : 0 < name_size)
    (todo : Nat) : ∀ (j : Nat) (acc : List bed),
      initial_bed_loop pbw name_size todo j acc =
        .ok (((List.range' j todo).map
          (bed_at pbw (fun _ => List.replicate name_size.toNat NUL))).reverse ++ acc) := by
  induction todo with
  | zero => intro j acc; simp [initial_bed_loop]
  | succ todo ih =>
    intro j acc
    have hlt : (name_size - 1).toNat < (List.replicate name_size.toNat NUL).length := by
      simp; omega
    have hidx : name_size - 1 = (((name_size - 1).toNat : Nat) : Int) := by omega
    have hset : (List.replicate name_size.toNat NUL).set (name_size - 1).toNat NUL
        = List.replicate name_size.toNat NUL := by
      apply List.ext_getElem (by simp)
      intro k h1 h2
      simp [List.getElem_set]
    have hpoke : poke (List.replicate name_size.toNat NUL) (name_size - 1) NUL =
        .ok (List.replicate name_size.toNat NUL) := by
      rw [hidx, poke_ok _ _ _ hlt, hset]
    simp only [initial_bed_loop, AllocArray, if_pos h, hpoke, ih, slAddHead]
    simp [List.range'_succ, bed_at]

theorem make_initial_bed_list_spec (pbw : perBaseWig) (name_size : Int) (h : 0 < name_size) :
    make_initial_bed_list pbw name_size =
      .ok ((List.range (seg_len pbw)).map
        (bed_at pbw (fun _ => List.replicate name_size.toNat NUL))) := by
  simp [make_initial_bed_list, initial_bed_loop_spec pbw name_size h, slReverse,
    List.range_eq_range', seg_len]

theorem fill_column_spec (pbw : perBaseWig) (sax : List Char) (col : Nat) (data_len : Int)
    (name : Nat → List Char) (hcol : ∀ j, col < (name j).length) (m : Nat) :
    ∀ j : Nat, m ≤ (data_len - (j : Int)).toNat → j + m ≤ sax.length →
      fill_column sax (col : Int) data_len j ((List.range' j m).map (bed_at pbw name)) =
        .ok ((List.range' j m).map
          (bed_at pbw (fun j => (name j).set col (sax.getD j NUL)))) := by
  induction m with
  | zero => intro j _ _; simp [fill_column]
  | succ m ih =>
    intro j h1 h2
    have hj : ((j : Nat) : Int) < data_len := by omega
    have hget : sax[j]? = some (sax.getD j NUL) := by
      have hjl : j < sax.length := by omega
      simp [List.getD, List.getElem?_eq_getElem hjl]
    have hpoke := poke_ok (name j) col (sax.getD j NUL) (hcol j)
    have ih' := ih (j + 1) (by omega) (by omega)
    simp only [List.range'_succ, List.map_cons, fill_column, if_pos hj, hget]
    simp only [bed_at] at hpoke ih' ⊢
    simp only [hpoke, ih']

theorem filled_name_length (x : Ext) (pbw : perBaseWig) (alphaS window : Int) (mean std : Dbl)
    (size c j : Nat) (h : c ≤ size) :
    (filled_name x pbw alphaS window mean std size c j).length = size := by
  simp only [filled_name, List.length_append, List.length_map, List.length_range,
    List.length_replicate]
  omega

theorem filled_name_set (x : Ext) (pbw : perBaseWig) (alphaS window : Int) (mean std : Dbl)
    (size c j : Nat) (h : c < size) :
    (filled_name x pbw alphaS window mean std size c j).set c
        (symbol_at x pbw window mean std (alphaS + c) j) =
      filled_name x pbw alphaS window mean std size (c + 1) j := by
  obtain ⟨r, hr⟩ : ∃ r, size - c = r + 1 := ⟨size - c - 1, by omega⟩
  have hr' : size - (c + 1) = r := by omega
  unfold filled_name
  rw [List.set_append]
  simp only [List.length_map, List.length_range, lt_irrefl, if_false, Nat.sub_self]
  rw [hr, hr', List.replicate_succ, List.set_cons_zero, List.range_succ, List.map_append]
  simp only [List.map_cons, List.map_nil, List.append_assoc, List.singleton_append]

theorem sweep_loop_spec (x : Ext) (pbw : perBaseWig) (alphaS alphaE window : Int)
    (mean std : Dbl) (hfit : IntFits alphaS alphaE) (hle : alphaS ≤ alphaE + 1)
    (hread : Readable x alphaS alphaE window mean std pbw) (size : Nat)
    (hsize : (alphaE + 1 - alphaS).toNat < size) (todo : Nat) :
    ∀ c : Nat, c + todo = (alphaE + 1 - alphaS).toNat →
      sweep_loop x pbw ((pbw.chromEnd : Int) - pbw.chromStart) alphaS alphaE window mean std
          (alphaS + c)
          ((List.range (seg_len pbw)).map
            (bed_at pbw (filled_name x pbw alphaS window mean std size c))) =
        .ok ((List.range (seg_len pbw)).map
          (bed_at pbw (filled_name x pbw alphaS window mean std size
            (alphaE + 1 - alphaS).toNat))) := by
  obtain ⟨h1, h2, h3⟩ := hfit
  simp only [INT_MAX] at h2 h3
  induction todo with
  | zero =>
    intro c hc
    rw [sweep_loop, if_neg (by omega)]
    have : c = (alphaE + 1 - alphaS).toNat := by omega
    rw [this]
  | succ todo ih =>
    intro c hc
    have hi : alphaS + (c : Int) ≤ alphaE := by omega
    have hfill := fill_column_spec pbw (encoding x pbw (alphaS + c) window mean std) c
      ((pbw.chromEnd : Int) - pbw.chromStart)
      (filled_name x pbw alphaS window mean std size c)
      (fun j => by rw [filled_name_length _ _ _ _ _ _ _ _ _ (by omega)]; omega)
      (seg_len pbw) 0 (by unfold seg_len; omega) (by
        have := hread (alphaS + c) (by omega) (by omega)
        omega)
    have hcol : wrap_int (alphaS + (c : Int) - alphaS) = (c : Int) := by
      rw [wrap_int_id _ (by omega) (by omega)]
      omega
    have hname : (fun j => (filled_name x pbw alphaS window mean std size c j).set c
        ((encoding x pbw (alphaS + c) window mean std).getD j NUL)) =
        filled_name x pbw alphaS window mean std size (c + 1) := by
      funext j
      exact filled_name_set x pbw alphaS window mean std size c j (by omega)
    rw [hname, ← List.range_eq_range'] at hfill
    have ih' := ih (c + 1) (by omega)
    rw [sweep_loop, if_pos hi, hcol]
    simp only [encoding] at hfill
    simp only [hfill]
    rw [if_pos (by simp only [INT_MAX]; omega)]
    have e1 : alphaS + (c : Int) + 1 = alphaS + ((c + 1 : Nat) : Int) := by push_cast; ring
    rw [e1]
    exact ih'

theorem sweep_segment_spec (x : Ext) (pbw : perBaseWig) (alphaS alphaE window : Int)
    (mean std : Dbl) (hfit : IntFits alphaS alphaE) (hle : alphaS ≤ alphaE + 1)
    (hread : Readable x alphaS alphaE window mean std pbw) :
    sweep_segment x pbw alphaS alphaE window mean std =
      .ok ((List.range (seg_len pbw)).map
        (bed_at pbw (fun j => symbol_field x pbw alphaS alphaE window mean std j ++ [NUL]))) := by
  have hsize : (alphaE - alphaS + 2).toNat = (alphaE + 1 - alphaS).toNat + 1 := by omega
  have h0 : (fun _ : Nat => List.replicate (alphaE - alphaS + 2).toNat NUL) =
      filled_name x pbw alphaS window mean std (alphaE - alphaS + 2).toNat 0 := by
    funext j; simp [filled_name]
  have hend : filled_name x pbw alphaS window mean std (alphaE - alphaS + 2).toNat
      (alphaE + 1 - alphaS).toNat =
      (fun j => symbol_field x pbw alphaS alphaE window mean std j ++ [NUL]) := by
    funext j; simp [filled_name, symbol_field, hsize]
  have hsweep := sweep_loop_spec x pbw alphaS alphaE window mean std hfit hle hread
    (alphaE - alphaS + 2).toNat (by omega) (alphaE + 1 - alphaS).toNat 0 (by omega)
  rw [hend] at hsweep
  simp only [Nat.cast_zero, add_zero] at hsweep
  simp only [sweep_segment, name_size_fits alphaS alphaE hfit hle,
    make_initial_bed_list_spec pbw _ (by omega : 0 < alphaE - alphaS + 2), h0]
  exact hsweep

theorem collect_loop_spec (data : List Dbl) (todo : Nat) :
    ∀ (j : Nat) (acc : List Dbl), j + todo ≤ data.length →
      collect_loop data todo j acc =
        .ok (((List.range' j todo).map (fun j => data.getD j (.finite 0 0))).reverse ++ acc) := by
  induction todo with
  | zero => intro j acc _; simp [collect_loop]
  | succ todo ih =>
    intro j acc h
    have hj : j < data.length := by omega
    have hget : data[j]? = some (data.getD j (.finite 0 0)) := by
      simp [List.getD, List.getElem?_eq_getElem hj]
    simp only [collect_loop, hget, ih (j + 1) _ (by omega), slAddHead]
    simp [List.range'_succ]

theorem pop_loop_spec (l : List bed) : ∀ acc : List bed, pop_loop l acc = l.reverse ++ acc := by
  induction l with
  | nil => intro acc; simp [pop_loop]
  | cons b l ih => intro acc; simp [pop_loop, ih, slAddHead]

theorem bed4_segments_spec (x : Ext) (alphaS alphaE window : Int) (mean std : Dbl)
    (outWig : Bool) (hfit : IntFits alphaS alphaE) (hle : alphaS ≤ alphaE + 1)
    (segs : List perBaseWig) :
    ∀ (obl : List bed) (dl : List Dbl),
      (∀ pbw ∈ segs, Readable x alphaS alphaE window mean std pbw) →
      (outWig = true → ∀ pbw ∈ segs, seg_len pbw ≤ pbw.data.length) →
      bed4_segments x alphaS alphaE window mean std outWig segs obl dl =
        .ok ((segs.flatMap (swept_beds x alphaS alphaE window mean std)).reverse ++ obl,
          (if outWig then (segs.flatMap seg_values).reverse else []) ++ dl) := by
  induction segs with
  | nil => intro obl dl _ _; cases outWig <;> simp [bed4_segments]
  | cons pbw rest ih =>
    intro obl dl hread hdata
    have hseg := sweep_segment_spec x pbw alphaS alphaE window mean std hfit hle
      (hread pbw (by simp))
    have ih' := fun o d => ih o d (fun p hp => hread p (by simp [hp]))
      (fun hw p hp => hdata hw p (by simp [hp]))
    cases outWig with
    | false =>
      simp only [bed4_segments, hseg, Bool.false_eq_true, if_false, pop_loop_spec, ih']
      simp [swept_beds]
    | true =>
      have hcol := collect_loop_spec pbw.data (seg_len pbw) 0 dl
        (by have := hdata rfl pbw (by simp); omega)
      simp only [seg_len] at hcol
      simp only [bed4_segments, hseg, if_true, hcol, pop_loop_spec, ih']
      simp [swept_beds, seg_values, List.range_eq_range', seg_len]

/-! ### The output loop of `wigsax_bed4` -/

theorem bed4_output_plain (x : Ext) (beds : List bed) :
    ∀ (vals : List Dbl) (out : Stream),
      bed4_output x false beds vals out =
        .done (out ++ beds.map
          (fun b => row_line b.chrom b.chromStart b.chromEnd (fmt_s b.name) '\n')) () := by
  induction beds with
  | nil => intro vals out; simp [bed4_output]
  | cons b rest ih =>
    intro vals out
    simp [bed4_output, ih, bedOutputN4, fprintf, row_line]

theorem bed4_output_values (x : Ext) (rows : List (bed × Dbl)) :
    ∀ out : Stream,
      bed4_output x true (rows.map Prod.fst) (rows.map Prod.snd) out =
        .done (out ++ rows.flatMap
          (fun r => [row_line r.1.chrom r.1.chromStart r.1.chromEnd (fmt_s r.1.name) '\t',
            x.fmt_f4 r.2 ++ ['\n']])) () := by
  induction rows with
  | nil => intro out; simp [bed4_output]
  | cons r rest ih =>
    intro out
    simp [bed4_output, ih, bedOutputN4, fprintf, row_line]

theorem bed4_rows_fst (x : Ext) (alphaS alphaE window : Int) (mean std : Dbl)
    (segs : List perBaseWig) :
    segs.flatMap (swept_beds x alphaS alphaE window mean std) =
      (bed4_rows x alphaS alphaE window mean std segs).map Prod.fst := by
  simp only [bed4_rows, List.map_flatMap, List.map_map]
  congr 1

theorem bed4_rows_snd (x : Ext) (alphaS alphaE window : Int) (mean std : Dbl)
    (segs : List perBaseWig) :
    segs.flatMap seg_values =
      (bed4_rows x alphaS alphaE window mean std segs).map Prod.snd := by
  simp only [bed4_rows, List.map_flatMap, List.map_map]
  congr 1

theorem wigsax_bed4_plain_spec (x : Ext) (out : Stream) (region : bed)
    (alphaS alphaE window : Int) (mean std : Dbl) (hfit : IntFits alphaS alphaE)
    (hle : alphaS ≤ alphaE + 1)
    (hread : ∀ pbw ∈ x.perBaseWigLoadContinue region,
      Readable x alphaS alphaE window mean std pbw) :
    wigsax_bed4 x false out region alphaS alphaE window mean std =
      .done (out ++ (x.perBaseWigLoadContinue region).flatMap (fun pbw =>
        (List.range (seg_len pbw)).map (fun j =>
          row_line pbw.chrom (pbw.chromStart + j) (pbw.chromStart + j + 1)
            (fmt_s (symbol_field x pbw alphaS alphaE window mean std j ++ [NUL])) '\n'))) () := by
  simp only [wigsax_bed4, bed4_segments_spec x alphaS alphaE window mean std false hfit hle _ [] []
    hread (by simp), slReverse, List.append_nil, List.reverse_reverse, bed4_output_plain]
  simp [swept_beds, List.map_flatMap, bed_at, Function.comp_def]

theorem wigsax_bed4_values_spec (x : Ext) (out : Stream) (region : bed)
    (alphaS alphaE window : Int) (mean std : Dbl) (hfit : IntFits alphaS alphaE)
    (hle : alphaS ≤ alphaE + 1)
    (hread : ∀ pbw ∈ x.perBaseWigLoadContinue region,
      Readable x alphaS alphaE window mean std pbw)
    (hdata : ∀ pbw ∈ x.perBaseWigLoadContinue region, seg_len pbw ≤ pbw.data.length) :
    wigsax_bed4 x true out region alphaS alphaE window mean std =
      .done (out ++ (x.perBaseWigLoadContinue region).flatMap (fun pbw =>
        (List.range (seg_len pbw)).flatMap (fun j =>
          [row_line pbw.chrom (pbw.chromStart + j) (pbw.chromStart + j + 1)
            (fmt_s (symbol_field x pbw alphaS alphaE window mean std j ++ [NUL])) '\t',
           x.fmt_f4 (pbw.data.getD j (.finite 0 0)) ++ ['\n']]))) () := by
  simp only [wigsax_bed4, bed4_segments_spec x alphaS alphaE window mean std true hfit hle _ [] []
    hread (fun _ => hdata), slReverse, List.append_nil, List.reverse_reverse, if_true]
  rw [bed4_rows_fst, bed4_rows_snd x alphaS alphaE window mean std, bed4_output_values]
  simp [bed4_rows, List.flatMap_assoc, List.flatMap_map, bed_at]

theorem fmt_s_append_nul (u : List Char) (hu : ∀ c ∈ u, c ≠ NUL) : fmt_s (u ++ [NUL]) = u := by
  induction u with
  | nil => simp [fmt_s]
  | cons c u ih =>
    have hc : c ≠ NUL := hu c (by simp)
    have := ih (fun c hc => hu c (by simp [hc]))
    simp only [fmt_s] at this
    simp [fmt_s, hc, this]

theorem flatMap_single {α β : Type} (g : α → β) (l : List α) :
    l.flatMap (fun a => [g a]) = l.map g := by
  induction l with
  | nil => rfl
  | cons a l ih => simp [List.flatMap_cons, ih]

theorem flatMap_length_const {α β : Type} (f : α → List β) (c : Nat)
    (h : ∀ a, (f a).length = c) (l : List α) : (l.flatMap f).length = c * l.length := by
  induction l with
  | nil => simp
  | cons a l ih => simp [List.flatMap_cons, ih, h, Nat.mul_succ, Nat.add_comm]

theorem bed4_text_length (x : Ext) (outWig : Bool) (alphaS alphaE window : Int) (mean std : Dbl)
    (segs : List perBaseWig) :
    (bed4_text x outWig alphaS alphaE window mean std segs).length =
      (if outWig then 2 else 1) * (segs.map seg_len).sum := by
  induction segs with
  | nil => simp [bed4_text]
  | cons pbw rest ih =>
    simp only [bed4_text, List.flatMap_cons, List.length_append, List.map_cons, List.sum_cons,
      Nat.mul_add] at ih ⊢
    rw [ih]
    congr 1
    rw [flatMap_length_const _ (if outWig then 2 else 1) (by intro j; cases outWig <;> simp),
      List.length_range]

/-- C2 (as amended): for a range `alphaS <= alphaE` that involves no `int`
overflow and whose encodings of the segment hold at least `n` symbols, none of
them NUL, the record of position `j` built by `wigsax_bed4` has a symbol field
of `alphaE - alphaS + 1` characters, the `k`-th being the `j`-th symbol of the
encoding with alphabet size `alphaS + k`. -/
theorem sweep_segment_symbol_field (x : Ext) (pbw : perBaseWig) (alphaS alphaE window : Int)
    (mean std : Dbl) (hle : alphaS ≤ alphaE) (hfit : IntFits alphaS alphaE)
    (hread : Readable x alphaS alphaE window mean std pbw)
    (hnul : ∀ a : Int, alphaS ≤ a → a ≤ alphaE → ∀ j, j < seg_len pbw →
      (encoding x pbw a window mean std)[j]? ≠ some NUL) :
    ∃ beds, sweep_segment x pbw alphaS alphaE window mean std = .ok beds ∧
      beds.length = seg_len pbw ∧
      ∀ j, j < seg_len pbw → ∃ b, beds[j]? = some b ∧
        b.chrom = pbw.chrom ∧ b.chromStart = pbw.chromStart + j ∧
        ((fmt_s b.name).length : Int) = alphaE - alphaS + 1 ∧
        ∀ k : Nat, (k : Int) ≤ alphaE - alphaS →
          (fmt_s b.name)[k]? = (encoding x pbw (alphaS + k) window mean std)[j]? := by
  refine ⟨_, sweep_segment_spec x pbw alphaS alphaE window mean std hfit (by omega) hread,
    by simp, ?_⟩
  intro j hj
  have hsym : ∀ k : Nat, (k : Int) ≤ alphaE - alphaS →
      some (symbol_at x pbw window mean std (alphaS + k) j) =
        (encoding x pbw (alphaS + k) window mean std)[j]? := by
    intro k hk
    have hlen := hread (alphaS + k) (by omega) (by omega)
    have hjl : j < (encoding x pbw (alphaS + k) window mean std).length := by omega
    simp [symbol_at, List.getD, List.getElem?_eq_getElem hjl]
  have hfield : fmt_s (symbol_field x pbw alphaS alphaE window mean std j ++ [NUL]) =
      symbol_field x pbw alphaS alphaE window mean std j := by
    apply fmt_s_append_nul
    intro c hc
    simp only [symbol_field, List.mem_map, List.mem_range] at hc
    obtain ⟨k, hk, rfl⟩ := hc
    intro hnulc
    have h1 := hsym k (by omega)
    rw [hnulc] at h1
    exact hnul (alphaS + k) (by omega) (by omega) j hj h1.symm
  refine ⟨bed_at pbw (fun j => symbol_field x pbw alphaS alphaE window mean std j ++ [NUL]) j,
    by simp [hj], rfl, rfl, ?_, ?_⟩
  · simp only [bed_at]
    rw [hfield]
    simp only [symbol_field, List.length_map, List.length_range]
    omega
  · intro k hk
    simp only [bed_at]
    rw [hfield, ← hsym k hk]
    simp only [symbol_field]
    rw [List.getElem?_map, List.getElem?_range (by omega)]
    rfl

/-- C3 (as amended): for a range with `alphaS <= alphaE + 1` that involves no
`int` overflow, `wigsax_bed4` writes one row per base position of every loaded
segment, `n_1 + n_2 + ...` rows in all, in segment order and in ascending
position order within a segment; the `j`-th row of a segment carries the
chromosome name of the segment, `chromStart + j` and `chromStart + j + 1`. -/
theorem wigsax_bed4_rows (x : Ext) (outWig : Bool) (out : Stream) (region : bed)
    (alphaS alphaE window : Int) (mean std : Dbl) (hfit : IntFits alphaS alphaE)
    (hle : alphaS ≤ alphaE + 1)
    (hread : ∀ pbw ∈ x.perBaseWigLoadContinue region,
      Readable x alphaS alphaE window mean std pbw)
    (hdata : outWig = true →
      ∀ pbw ∈ x.perBaseWigLoadContinue region, seg_len pbw ≤ pbw.data.length) :
    wigsax_bed4 x outWig out region alphaS alphaE window mean std =
        .done (out ++ bed4_text x outWig alphaS alphaE window mean std
          (x.perBaseWigLoadContinue region)) () ∧
      (bed4_text x outWig alphaS alphaE window mean std (x.perBaseWigLoadContinue region)).length
        = (if outWig then 2 else 1) * ((x.perBaseWigLoadContinue region).map seg_len).sum := by
  refine ⟨?_, bed4_text_length _ _ _ _ _ _ _ _⟩
  cases outWig with
  | false =>
    rw [wigsax_bed4_plain_spec x out region alphaS alphaE window mean std hfit hle hread]
    simp only [bed4_text, Bool.false_eq_true, if_false, flatMap_single]
  | true =>
    rw [wigsax_bed4_values_spec x out region alphaS alphaE window mean std hfit hle hread
      (hdata rfl)]
    simp [bed4_text]

/-! ### The stream only grows -/

theorem fasta_loop_grows (data_len : Int) (i : Nat) (sax : List Char) (out : Stream) :
    out <+: (fasta_loop data_len i sax out).out := by
  induction i, sax, out using fasta_loop.induct data_len with
  | case1 i sax out hlt hnone =>
    rw [fasta_loop, if_pos hlt, hnone]
    exact List.prefix_refl _
  | case2 i sax out hlt swap hsome sax1 out1 sax2 ih =>
    rw [fasta_loop, if_pos hlt, hsome]
    exact List.IsPrefix.trans (List.prefix_append _ _) ih
  | case3 i sax out hlt =>
    rw [fasta_loop, if_neg hlt]
    exact List.prefix_refl _

theorem fasta_segments_grows (x : Ext) (alpha window : Int) (mean std : Dbl)
    (segs : List perBaseWig) : ∀ out : Stream,
      out <+: (fasta_segments x alpha window mean std segs out).out := by
  induction segs with
  | nil => intro out; exact List.prefix_refl _
  | cons pbw rest ih =>
    intro out
    have h := fasta_loop_grows ((pbw.chromEnd : Int) - pbw.chromStart) 0
      (x.sax_from_array_force_window pbw.data ((pbw.chromEnd : Int) - pbw.chromStart)
        alpha window mean std) (fprintf out (fasta_header pbw))
    have h0 : out <+: fprintf out (fasta_header pbw) := List.prefix_append _ _
    simp only [fasta_segments]
    split
    · next o hh heq =>
      rw [heq] at h
      exact h0.trans h
    · next o v heq =>
      rw [heq] at h
      exact (h0.trans h).trans (ih o)

theorem bed4_output_grows (x : Ext) (outWig : Bool) (beds : List bed) :
    ∀ (vals : List Dbl) (out : Stream), out <+: (bed4_output x outWig beds vals out).out := by
  induction beds with
  | nil => intro vals out; exact List.prefix_refl _
  | cons b rest ih =>
    intro vals out
    have h0 : out <+: bedOutputN4 out b (if outWig then '\t' else '\n') :=
      List.prefix_append _ _
    cases outWig with
    | false =>
      simp only [bed4_output, Bool.false_eq_true, if_false] at h0 ⊢
      exact h0.trans (ih _ _)
    | true =>
      cases vals with
      | nil => simpa [bed4_output, Res.out] using h0
      | cons v vs =>
        simp only [bed4_output, if_true] at h0 ⊢
        exact (h0.trans (List.prefix_append _ _)).trans (ih _ _)

theorem wigsax_bed4_grows (x : Ext) (outWig : Bool) (out : Stream) (region : bed)
    (alphaS alphaE window : Int) (mean std : Dbl) :
    out <+: (wigsax_bed4 x outWig out region alphaS alphaE window mean std).out := by
  simp only [wigsax_bed4]
  split
  · exact List.prefix_refl _
  · exact bed4_output_grows _ _ _ _ _

theorem render_sections_grows (x : Ext) (outWig seq : Bool) (alpha : Int)
    (itStart itEnd window : Nat) (mean std : Dbl) (secs : List bed) :
    ∀ out : Stream,
      out <+: (render_sections x outWig seq alpha itStart itEnd window mean std secs out).out := by
  induction secs with
  | nil => intro out; exact List.prefix_refl _
  | cons b rest ih =>
    intro out
    have h : out <+: (if seq then wigsax_fasta x out b alpha (to_int window) mean std
           else wigsax_bed4 x outWig out b (to_int itStart) (to_int itEnd) (to_int window)
             mean std).out := by
      cases seq
      · exact wigsax_bed4_grows _ _ _ _ _ _ _ _ _
      · exact fasta_segments_grows _ _ _ _ _ _ _
    simp only [render_sections]
    split
    · next o hh heq => rw [heq] at h; exact h
    · next o v heq => rw [heq] at h; exact h.trans (ih o)

/-! ### The loop of `bwtool_sax` -/

theorem sections_loop_rest (x : Ext) (outWig force_bed4 : Bool) (alpha : Int)
    (itStart itEnd window : Nat) (mean std : Dbl) (secs : List bed) :
    ∀ out : Stream,
      sections_loop x outWig force_bed4 alpha itStart itEnd window mean std false secs out =
        render_sections x outWig (itStart == itEnd && !force_bed4) alpha itStart itEnd window
          mean std secs out := by
  induction secs with
  | nil => intro out; rfl
  | cons b rest ih =>
    intro out
    simp only [sections_loop, render_sections, Bool.false_eq_true, if_false, ih]
    cases (itStart == itEnd && !force_bed4) <;> rfl

theorem sections_loop_first (x : Ext) (outWig force_bed4 : Bool) (alpha : Int)
    (itStart itEnd window : Nat) (mean std : Dbl) (b : bed) (rest : List bed) :
    sections_loop x outWig force_bed4 alpha itStart itEnd window mean std true (b :: rest) [] =
      render_sections x outWig (itStart == itEnd && !force_bed4) alpha itStart itEnd window
        mean std (b :: rest)
        [header_created, if (itStart == itEnd && !force_bed4) then header_alpha alpha
          else header_range itStart itEnd] := by
  simp only [sections_loop, render_sections, if_true, sections_loop_rest, fprintf,
    List.nil_append, List.singleton_append]
  cases (itStart == itEnd && !force_bed4) <;> rfl

/-! ### As many values as rows -/

theorem AllocArray_stop (size : Int) (h : Halt) (hs : AllocArray size = .stop h) :
    h ≠ inconsistency := by
  unfold AllocArray at hs
  split at hs
  · cases hs
  · cases hs
    decide

theorem poke_stop (p : List Char) (i : Int) (c : Char) (h : Halt)
    (hs : poke p i c = .stop h) : h ≠ inconsistency := by
  unfold poke at hs
  split at hs
  · cases hs
  · cases hs
    decide

theorem initial_bed_loop_sound (pbw : perBaseWig) (name_size : Int) (todo : Nat) :
    ∀ (j : Nat) (acc : List bed),
      Try.sound (initial_bed_loop pbw name_size todo j acc) (fun bl =>
        bl.map bed.key = ((List.range' j todo).map (key_at pbw)).reverse ++ acc.map bed.key) := by
  induction todo with
  | zero => intro j acc; simp [initial_bed_loop, Try.sound]
  | succ todo ih =>
    intro j acc
    simp only [initial_bed_loop]
    split
    · next h hs => exact AllocArray_stop _ _ hs
    · split
      · next h hs => exact poke_stop _ _ _ _ hs
      · have := ih (j + 1) (slAddHead acc
          { chrom := pbw.chrom, chromStart := pbw.chromStart + j,
            chromEnd := pbw.chromStart + j + 1, name := by assumption })
        revert this
        generalize initial_bed_loop pbw name_size todo (j + 1) _ = r
        cases r with
        | stop h => exact id
        | ok bl =>
          intro hbl
          simp only [Try.sound] at hbl ⊢
          rw [hbl]
          simp [slAddHead, List.range'_succ, bed.key, key_at]

theorem fill_column_sound (sax : List Char) (col : Int) (data_len : Int) (beds : List bed) :
    ∀ j : Nat, Try.sound (fill_column sax col data_len j beds)
      (fun bl => bl.map bed.key = beds.map bed.key) := by
  induction beds with
  | nil => intro j; simp [fill_column, Try.sound]
  | cons b rest ih =>
    intro j
    simp only [fill_column]
    split
    · split
      · simp only [Try.sound]; decide
      · split
        · next h hs => exact poke_stop _ _ _ _ hs
        · have := ih (j + 1)
          revert this
          generalize fill_column sax col data_len (j + 1) rest = r
          cases r with
          | stop h => exact id
          | ok bl =>
            intro hbl
            simp only [Try.sound] at hbl ⊢
            simp [hbl, bed.key]
    · simp [Try.sound]

theorem sweep_loop_sound (x : Ext) (pbw : perBaseWig) (data_len alphaS alphaE window : Int)
    (mean std : Dbl) (i : Int) (beds : List bed) :
    Try.sound (sweep_loop x pbw data_len alphaS alphaE window mean std i beds)
      (fun bl => bl.map bed.key = beds.map bed.key) := by
  induction i, beds using sweep_loop.induct x pbw data_len alphaS alphaE window mean std with
  | case1 i beds hi sax h hs =>
    rw [sweep_loop, if_pos hi]
    simp only [sax] at hs
    simp only [hs]
    have := fill_column_sound sax (wrap_int (i - alphaS)) data_len beds 0
    simp only [sax] at this
    rw [hs] at this
    exact this
  | case2 i beds hi sax bl1 hs hlt ih =>
    rw [sweep_loop, if_pos hi]
    simp only [sax] at hs
    simp only [hs, if_pos hlt]
    have h1 := fill_column_sound sax (wrap_int (i - alphaS)) data_len beds 0
    simp only [sax] at h1
    rw [hs] at h1
    revert ih
    generalize sweep_loop x pbw data_len alphaS alphaE window mean std (i + 1) bl1 = r
    cases r with
    | stop h => exact id
    | ok bl =>
      intro hbl
      simp only [Try.sound] at hbl h1 ⊢
      rw [hbl, h1]
  | case3 i beds hi sax bl1 hs hlt =>
    rw [sweep_loop, if_pos hi]
    simp only [sax] at hs
    simp only [hs, if_neg hlt, Try.sound]
    decide
  | case4 i beds hi =>
    rw [sweep_loop, if_neg hi]
    simp [Try.sound]

theorem sweep_segment_sound (x : Ext) (pbw : perBaseWig) (alphaS alphaE window : Int)
    (mean std : Dbl) :
    Try.sound (sweep_segment x pbw alphaS alphaE window mean std)
      (fun bl => bl.map bed.key = (List.range (seg_len pbw)).map (key_at pbw)) := by
  simp only [sweep_segment, make_initial_bed_list]
  have h0 := initial_bed_loop_sound pbw (wrap_int (wrap_int (alphaE - alphaS) + 2))
    (((pbw.chromEnd : Int) - pbw.chromStart).toNat) 0 []
  revert h0
  generalize initial_bed_loop pbw _ _ 0 [] = r0
  cases r0 with
  | stop h => exact id
  | ok bl0 =>
    intro h0
    simp only [Try.sound] at h0
    have h1 := sweep_loop_sound x pbw ((pbw.chromEnd : Int) - pbw.chromStart) alphaS alphaE
      window mean std alphaS (slReverse bl0)
    revert h1
    simp only
    generalize sweep_loop x pbw _ alphaS alphaE window mean std alphaS (slReverse bl0) = r1
    cases r1 with
    | stop h => exact id
    | ok bl =>
      intro h1
      simp only [Try.sound] at h1 ⊢
      rw [h1]
      simp only [slReverse, List.map_reverse, h0, List.map_nil, List.append_nil,
        List.reverse_reverse, List.range_eq_range', seg_len]

theorem collect_loop_sound (data : List Dbl) (todo : Nat) :
    ∀ (j : Nat) (acc : List Dbl),
      Try.sound (collect_loop data todo j acc) (fun dl =>
        dl.map some = ((List.range' j todo).map (fun j => data[j]?)).reverse ++ acc.map some) := by
  induction todo with
  | zero => intro j acc; simp [collect_loop, Try.sound]
  | succ todo ih =>
    intro j acc
    simp only [collect_loop]
    split
    · simp only [Try.sound]; decide
    · next v hv =>
      have := ih (j + 1) (slAddHead acc v)
      revert this
      generalize collect_loop data todo (j + 1) (slAddHead acc v) = r
      cases r with
      | stop h => exact id
      | ok dl =>
        intro hdl
        simp only [Try.sound] at hdl ⊢
        rw [hdl]
        simp [slAddHead, List.range'_succ, hv]

theorem bed4_segments_sound (x : Ext) (alphaS alphaE window : Int) (mean std : Dbl)
    (segs : List perBaseWig) :
    ∀ (obl : List bed) (dl : List Dbl),
      Try.sound (bed4_segments x alphaS alphaE window mean std true segs obl dl) (fun r =>
        r.1.map bed.key =
          (segs.flatMap (fun pbw => (List.range (seg_len pbw)).map (key_at pbw))).reverse ++
            obl.map bed.key ∧
        r.2.map some =
          (segs.flatMap (fun pbw => (List.range (seg_len pbw)).map
            (fun j => pbw.data[j]?))).reverse ++ dl.map some) := by
  induction segs with
  | nil => intro obl dl; simp [bed4_segments, Try.sound]
  | cons pbw rest ih =>
    intro obl dl
    simp only [bed4_segments, if_true]
    have h0 := sweep_segment_sound x pbw alphaS alphaE window mean std
    revert h0
    generalize sweep_segment x pbw alphaS alphaE window mean std = r0
    cases r0 with
    | stop h => exact id
    | ok bl =>
      intro h0
      have h1 := collect_loop_sound pbw.data
        (((pbw.chromEnd : Int) - pbw.chromStart).toNat) 0 dl
      revert h1
      simp only
      generalize collect_loop pbw.data _ 0 dl = r1
      cases r1 with
      | stop h => exact id
      | ok dl1 =>
        intro h1
        have h2 := ih (pop_loop bl obl) dl1
        revert h2
        simp only
        generalize bed4_segments x alphaS alphaE window mean std true rest _ dl1 = r2
        cases r2 with
        | stop h => exact id
        | ok r =>
          intro h2
          simp only [Try.sound] at h0 h1 h2 ⊢
          rw [h2.1, h2.2, h1, pop_loop_spec]
          simp [h0, List.range_eq_range', seg_len]

theorem bed4_output_zip (x : Ext) (beds : List bed) :
    ∀ (vals : List Dbl) (out : Stream), vals.length = beds.length →
      bed4_output x true beds vals out =
        .done (out ++ (beds.zip vals).flatMap
          (fun r => [row_line r.1.chrom r.1.chromStart r.1.chromEnd (fmt_s r.1.name) '\t',
            x.fmt_f4 r.2 ++ ['\n']])) () := by
  induction beds with
  | nil => intro vals out _; simp [bed4_output]
  | cons b rest ih =>
    intro vals out h
    cases vals with
    | nil => simp at h
    | cons v vs =>
      simp only [bed4_output, if_true]
      rw [ih vs _ (by simpa using h)]
      simp [bedOutputN4, fprintf, row_line]

theorem bed4_segments_shape (x : Ext) (region : bed) (alphaS alphaE window : Int)
    (mean std : Dbl) (obl : List bed) (dl : List Dbl)
    (h : bed4_segments x alphaS alphaE window mean std true (x.perBaseWigLoadContinue region)
      [] [] = .ok (obl, dl)) :
    (slReverse obl).map bed.key = (x.perBaseWigLoadContinue region).flatMap
        (fun pbw => (List.range (seg_len pbw)).map (key_at pbw)) ∧
      (slReverse dl).map some = (x.perBaseWigLoadContinue region).flatMap
        (fun pbw => (List.range (seg_len pbw)).map (fun j => pbw.data[j]?)) := by
  have hs := bed4_segments_sound x alphaS alphaE window mean std
    (x.perBaseWigLoadContinue region) [] []
  rw [h] at hs
  simp only [Try.sound, List.map_nil, List.append_nil] at hs
  simp only [slReverse, List.map_reverse, hs.1, hs.2, List.reverse_reverse, and_self]

/-- C5: with the original-value column enabled, `wigsax_bed4` never ends in the
`data inconsistency` abort; whenever its first loop completes, it has collected
as many values as rows, the `k`-th row and the `k`-th value belong to the same
position `j` of the same segment, the value being `data[j]` as loaded, and the
output loop writes every row followed by its value; for well-formed segments
and a range without overflow the first loop does complete. -/
theorem wigsax_bed4_original_values (x : Ext) (out : Stream) (region : bed)
    (alphaS alphaE window : Int) (mean std : Dbl) :
    (∀ o, wigsax_bed4 x true out region alphaS alphaE window mean std ≠
      .halted o (.errAbort "data inconsistency. programmer error\n")) ∧
    (∀ outBedList datList,
      bed4_segments x alphaS alphaE window mean std true (x.perBaseWigLoadContinue region)
          [] [] = .ok (outBedList, datList) →
        datList.length = outBedList.length ∧
        (slReverse outBedList).map bed.key = (x.perBaseWigLoadContinue region).flatMap
          (fun pbw => (List.range (seg_len pbw)).map (key_at pbw)) ∧
        (slReverse datList).map some = (x.perBaseWigLoadContinue region).flatMap
          (fun pbw => (List.range (seg_len pbw)).map (fun j => pbw.data[j]?)) ∧
        wigsax_bed4 x true out region alphaS alphaE window mean std =
          .done (out ++ ((slReverse outBedList).zip (slReverse datList)).flatMap
            (fun r => [row_line r.1.chrom r.1.chromStart r.1.chromEnd (fmt_s r.1.name) '\t',
              x.fmt_f4 r.2 ++ ['\n']])) ()) ∧
    (IntFits alphaS alphaE → alphaS ≤ alphaE + 1 →
      (∀ pbw ∈ x.perBaseWigLoadContinue region,
        Readable x alphaS alphaE window mean std pbw) →
      (∀ pbw ∈ x.perBaseWigLoadContinue region, seg_len pbw ≤ pbw.data.length) →
      wigsax_bed4 x true out region alphaS alphaE window mean std =
        .done (out ++ bed4_text x true alphaS alphaE window mean std
          (x.perBaseWigLoadContinue region)) ()) := by
  have hb : ∀ outBedList datList,
      bed4_segments x alphaS alphaE window mean std true (x.perBaseWigLoadContinue region)
          [] [] = .ok (outBedList, datList) →
        datList.length = outBedList.length ∧
        (slReverse outBedList).map bed.key = (x.perBaseWigLoadContinue region).flatMap
          (fun pbw => (List.range (seg_len pbw)).map (key_at pbw)) ∧
        (slReverse datList).map some = (x.perBaseWigLoadContinue region).flatMap
          (fun pbw => (List.range (seg_len pbw)).map (fun j => pbw.data[j]?)) ∧
        wigsax_bed4 x true out region alphaS alphaE window mean std =
          .done (out ++ ((slReverse outBedList).zip (slReverse datList)).flatMap
            (fun r => [row_line r.1.chrom r.1.chromStart r.1.chromEnd (fmt_s r.1.name) '\t',
              x.fmt_f4 r.2 ++ ['\n']])) () := by
    intro obl dl h
    have hs := bed4_segments_shape x region alphaS alphaE window mean std obl dl h
    have hlen : dl.length = obl.length := by
      have h1 := congrArg List.length hs.1
      have h2 := congrArg List.length hs.2
      simp only [slReverse, List.length_map, List.length_reverse, List.length_flatMap,
        List.length_range] at h1 h2
      rw [h1, h2]
      simp [Function.comp_def]
    refine ⟨hlen, hs.1, hs.2, ?_⟩
    simp only [wigsax_bed4, h]
    exact bed4_output_zip x _ _ _ (by simp [slReverse, hlen])
  refine ⟨?_, hb, ?_⟩
  · intro o hhalt
    have hs := bed4_segments_sound x alphaS alphaE window mean std
      (x.perBaseWigLoadContinue region) [] []
    cases hseg : bed4_segments x alphaS alphaE window mean std true
        (x.perBaseWigLoadContinue region) [] [] with
    | stop h =>
      rw [hseg] at hs
      simp only [wigsax_bed4, hseg, Res.halted.injEq] at hhalt
      exact hs hhalt.2
    | ok r =>
      obtain ⟨obl, dl⟩ := r
      rw [(hb obl dl hseg).2.2.2] at hhalt
      cases hhalt
  · intro hfit hle hread hdata
    rw [wigsax_bed4_values_spec x out region alphaS alphaE window mean std hfit hle hread hdata]
    simp [bed4_text]

/-! ### `bwtool_sax` -/

theorem bwtool_sax_opened (x : Ext) (a : Args)
    (hcheck : check_options a.mean.isSome a.std.isSome a.stdVal = none) :
    bwtool_sax x a = .opened (sections_loop x a.addWigOut a.force_bed4 a.alpha a.itStart
      a.itEnd a.window a.meanVal a.stdVal true a.sections []) := by
  simp only [bwtool_sax, hcheck]

theorem bwtool_sax_render (x : Ext) (a : Args)
    (hcheck : check_options a.mean.isSome a.std.isSome a.stdVal = none)
    (b : bed) (rest : List bed) (hsec : a.sections = b :: rest) :
    bwtool_sax x a = .opened (render_sections x a.addWigOut a.seq a.alpha a.itStart a.itEnd
      a.window a.meanVal a.stdVal (b :: rest) [header_created, a.header2]) := by
  rw [bwtool_sax_opened x a hcheck, hsec, sections_loop_first]
  rfl

theorem bwtool_sax_header_first (x : Ext) (a : Args)
    (hcheck : check_options a.mean.isSome a.std.isSome a.stdVal = none)
    (hsec : a.sections ≠ []) :
    [header_created, a.header2] <+: (bwtool_sax x a).written := by
  cases hs : a.sections with
  | nil => exact absurd hs hsec
  | cons b rest =>
    rw [bwtool_sax_render x a hcheck b rest hs]
    exact render_sections_grows _ _ _ _ _ _ _ _ _ _ _

/-- C4: the option check of `bwtool_sax` ends the run with a configuration
error exactly when one of `-mean` and `-std` is given without the other, or
both are given and `std <= 0`; the error comes before the output file is
opened and before anything is written; with neither option, `std` is zero and
the check passes. -/
theorem bwtool_sax_option_check (x : Ext) (a : Args) :
    ((∃ msg, bwtool_sax x a = .config_error msg) ↔
      (a.mean.isSome = true ∧ a.std.isSome = false) ∨
      (a.mean.isSome = false ∧ a.std.isSome = true) ∨
      (a.mean.isSome = true ∧ a.std.isSome = true ∧ a.stdVal.le_zero = true)) ∧
    (∀ msg, bwtool_sax x a = .config_error msg →
      (bwtool_sax x a).file_opened = false ∧ (bwtool_sax x a).written = []) ∧
    (a.mean = none → a.std = none →
      a.stdVal = .finite 0 0 ∧ (bwtool_sax x a).file_opened = true) := by
  refine ⟨?_, ?_, ?_⟩
  · simp only [bwtool_sax, check_options]
    cases hm : a.mean.isSome <;> cases hs : a.std.isSome <;>
      cases hz : a.stdVal.le_zero <;> simp
  · intro msg h
    rw [h]
    exact ⟨rfl, rfl⟩
  · intro hm hs
    refine ⟨by simp [Args.stdVal, hs], ?_⟩
    rw [bwtool_sax_opened x a (by simp [check_options, hm, hs])]
    rfl

/-- C7 (as amended): a sweep range with start > end raises no configuration
error: when the `-mean`/`-std` check passes the output file is opened, and
over at least one region the two header lines, the second one recording the
range `start-end`, are written first. -/
theorem bwtool_sax_reversed_range (x : Ext) (a : Args)
    (hcheck : check_options a.mean.isSome a.std.isSome a.stdVal = none)
    (hgt : a.itEnd < a.itStart) :
    (bwtool_sax x a).file_opened = true ∧
      (∀ msg, bwtool_sax x a ≠ .config_error msg) ∧
      (a.sections ≠ [] →
        [header_created, header_range a.itStart a.itEnd] <+: (bwtool_sax x a).written) := by
  refine ⟨by rw [bwtool_sax_opened x a hcheck]; rfl,
    fun msg h => (by rw [bwtool_sax_opened x a hcheck] at h; cases h), fun hsec => ?_⟩
  have h := bwtool_sax_header_first x a hcheck hsec
  have hne : (a.itStart == a.itEnd) = false := by
    simp only [beq_eq_false_iff_ne, ne_eq]
    omega
  simpa [Args.header2, Args.seq, hne] using h

/-- C8 (as amended): a requested alphabet size outside `[2, 20]` raises no
configuration error in `bwtool_sax`: when the `-mean`/`-std` check passes the
output file is opened, and over at least one region the two header lines, the
second one recording the requested size or range, are written first. -/
theorem bwtool_sax_size_unchecked (x : Ext) (a : Args)
    (hcheck : check_options a.mean.isSome a.std.isSome a.stdVal = none)
    (_hsize : a.alpha < 2 ∨ 20 < a.alpha ∨ a.itStart < 2 ∨ 20 < a.itStart ∨
      a.itEnd < 2 ∨ 20 < a.itEnd) :
    (bwtool_sax x a).file_opened = true ∧
      (∀ msg, bwtool_sax x a ≠ .config_error msg) ∧
      (a.sections ≠ [] →
        [header_created,
          if a.seq then header_alpha a.alpha else header_range a.itStart a.itEnd]
          <+: (bwtool_sax x a).written) := by
  refine ⟨by rw [bwtool_sax_opened x a hcheck]; rfl,
    fun msg h => (by rw [bwtool_sax_opened x a hcheck] at h; cases h), fun hsec => ?_⟩
  exact bwtool_sax_header_first x a hcheck hsec

/-- C9 (as amended): over at least one region the header written by
`bwtool_sax` is two `#` lines, the fixed version line and then the line that
records the alphabet size (sequential) or range (tabular); both are written
once, before the output of the first region, and all later text is written by
the renderers. -/
theorem bwtool_sax_header (x : Ext) (a : Args)
    (hcheck : check_options a.mean.isSome a.std.isSome a.stdVal = none)
    (b : bed) (rest : List bed) (hsec : a.sections = b :: rest) :
    bwtool_sax x a = .opened (render_sections x a.addWigOut a.seq a.alpha a.itStart a.itEnd
        a.window a.meanVal a.stdVal (b :: rest)
        [header_created,
          if a.seq then header_alpha a.alpha else header_range a.itStart a.itEnd]) ∧
      [header_created, if a.seq then header_alpha a.alpha else header_range a.itStart a.itEnd]
        <+: (bwtool_sax x a).written ∧
      header_created.head? = some '#' ∧ (header_alpha a.alpha).head? = some '#' ∧
      (header_range a.itStart a.itEnd).head? = some '#' := by
  refine ⟨bwtool_sax_render x a hcheck b rest hsec,
    bwtool_sax_header_first x a hcheck (by simp [hsec]), by decide, ?_, ?_⟩
  · simp [header_alpha]
  · simp [header_range]

/-! ### The sample run -/

theorem sample_load : sample_ext.perBaseWigLoadContinue sample_region = [sample_segment] := by
  decide

theorem sample_fits : IntFits 2 4 := by
  unfold IntFits
  decide

theorem sample_readable (alphaS alphaE : Int) :
    Readable sample_ext alphaS alphaE 0 .nan .nan sample_segment := by
  intro a _ _
  simp [encoding, sample_ext, seg_len, sample_segment]

theorem sample_readable_all (alphaS alphaE : Int) :
    ∀ pbw ∈ sample_ext.perBaseWigLoadContinue sample_region,
      Readable sample_ext alphaS alphaE 0 .nan .nan pbw := by
  intro pbw hp
  rw [sample_load, List.mem_singleton] at hp
  subst hp
  exact sample_readable alphaS alphaE

theorem sample_data_all :
    ∀ pbw ∈ sample_ext.perBaseWigLoadContinue sample_region, seg_len pbw ≤ pbw.data.length := by
  intro pbw hp
  rw [sample_load, List.mem_singleton] at hp
  subst hp
  decide

theorem sample_no_nul : ∀ a : Int, 2 ≤ a → a ≤ 4 → ∀ j, j < seg_len sample_segment →
    (encoding sample_ext sample_segment a 0 .nan .nan)[j]? ≠ some NUL := by
  intro a h1 h2 j hj
  have hj3 : j < 3 := hj
  have ha : a = 2 ∨ a = 3 ∨ a = 4 := by omega
  rcases ha with rfl | rfl | rfl <;> interval_cases j <;> decide

/-- C2 (as amended) on the sample segment with the range 2 to 4: the record of
position 1 has the symbol field `bcd`. -/
theorem sweep_segment_symbol_field_witness :
    (2 : Int) ≤ 4 ∧ IntFits 2 4 ∧ Readable sample_ext 2 4 0 .nan .nan sample_segment ∧
      ∃ beds, sweep_segment sample_ext sample_segment 2 4 0 .nan .nan = .ok beds ∧
        beds.length = 3 ∧
        ∃ b, beds[1]? = some b ∧ b.chromStart = 6 ∧ fmt_s b.name = ['b', 'c', 'd'] := by
  refine ⟨by decide, sample_fits, sample_readable 2 4, ?_⟩
  obtain ⟨beds, h1, h2, h3⟩ := sweep_segment_symbol_field sample_ext sample_segment 2 4 0
    .nan .nan (by decide) sample_fits (sample_readable 2 4) sample_no_nul
  refine ⟨beds, h1, h2, ?_⟩
  obtain ⟨b, hb, _, hs, hlen, hk⟩ := h3 1 (by decide)
  refine ⟨b, hb, hs, ?_⟩
  have hlen3 : (fmt_s b.name).length = 3 := by omega
  have e0 := hk 0 (by decide)
  have e1 := hk 1 (by decide)
  have e2 := hk 2 (by decide)
  apply List.ext_getElem?
  intro k
  by_cases h0 : k = 0
  · subst h0; rw [e0]; decide
  by_cases h1 : k = 1
  · subst h1; rw [e1]; decide
  by_cases h2 : k = 2
  · subst h2; rw [e2]; decide
  rw [List.getElem?_eq_none (by omega), List.getElem?_eq_none (by simp; omega)]

/-- C3 (as amended) on the sample region with the range 2 to 4: three rows,
positions 5, 6 and 7 in order. -/
theorem wigsax_bed4_rows_witness :
    IntFits 2 4 ∧ (2 : Int) ≤ 4 + 1 ∧
      (∀ pbw ∈ sample_ext.perBaseWigLoadContinue sample_region,
        Readable sample_ext 2 4 0 .nan .nan pbw) ∧
      wigsax_bed4 sample_ext false [] sample_region 2 4 0 .nan .nan =
        .done ["chr1\t5\t6\tbcd\n".toList, "chr1\t6\t7\tbcd\n".toList,
          "chr1\t7\t8\tbcd\n".toList] () :=
  ⟨sample_fits, by decide, sample_readable_all 2 4,
    (wigsax_bed4_rows sample_ext false [] sample_region 2 4 0 .nan .nan sample_fits (by decide)
      (sample_readable_all 2 4) (fun h => by cases h)).1.trans (by decide)⟩

/-- C5 on the sample region with the range 2 to 4: the run does not end in the
`data inconsistency` abort, and every row is followed by the value of its
position. -/
theorem wigsax_bed4_original_values_witness :
    (∀ o, wigsax_bed4 sample_ext true [] sample_region 2 4 0 .nan .nan ≠
        .halted o (.errAbort "data inconsistency. programmer error\n")) ∧
      wigsax_bed4 sample_ext true [] sample_region 2 4 0 .nan .nan =
        .done ["chr1\t5\t6\tbcd\t".toList, "0.0000\n".toList, "chr1\t6\t7\tbcd\t".toList,
          "1.0000\n".toList, "chr1\t7\t8\tbcd\t".toList, "2.0000\n".toList] () :=
  ⟨(wigsax_bed4_original_values sample_ext [] sample_region 2 4 0 .nan .nan).1,
    ((wigsax_bed4_original_values sample_ext [] sample_region 2 4 0 .nan .nan).2.2
      sample_fits (by decide) (sample_readable_all 2 4) sample_data_all).trans (by decide)⟩

/-- C6 (the code at the failing input): with `-iterate-start=5 -iterate-end=5`
and the positional size 8, the run is sequential and encodes with alphabet
size 8, the size of the header line and of the symbols `h`, not with 5. -/
theorem bwtool_sax_equal_bounds_use_alpha :
    bwtool_sax sample_ext args_equal =
      .opened (.done ["# created using wigsax version Sept2011.\n".toList,
        "# alphabet size = 8\n".toList, ">chr1:5-8\n".toList, "hhh\n".toList] ()) := by
  rw [bwtool_sax_render sample_ext args_equal (by decide) sample_region [] rfl]
  have h : ∀ pbw ∈ sample_ext.perBaseWigLoadContinue sample_region,
      EncodesAs sample_ext 8 0 neg_DBL_MAX (.finite 0 0) pbw ['h', 'h', 'h'] := by
    intro pbw hp
    rw [sample_load, List.mem_singleton] at hp
    subst hp
    exact ⟨by decide, by decide, List.replicate 59 NUL, by decide, by decide⟩
  have hf := fasta_segments_spec sample_ext 8 0 neg_DBL_MAX (.finite 0 0)
    (fun _ => ['h', 'h', 'h']) _ [header_created, header_alpha 8] h
  have hseq : args_equal.seq = true := by decide
  simp only [render_sections, hseq, if_true, wigsax_fasta]
  have e1 : args_equal.alpha = 8 := by decide
  have e2 : to_int args_equal.window = 0 := by decide
  have e3 : args_equal.meanVal = neg_DBL_MAX := by decide
  have e4 : args_equal.stdVal = .finite 0 0 := by decide
  have e5 : args_equal.header2 = header_alpha 8 := by decide
  rw [e1, e2, e3, e4, e5, hf]
  decide

/-- C7 (counterexample): the range 5 to 4 has start > end, yet the run opens
the output file, writes both header lines and a row per position, and ends
without any error. -/
theorem bwtool_sax_reversed_range_runs :
    bwtool_sax sample_ext args_reversed =
      .opened (.done ["# created using wigsax version Sept2011.\n".toList,
        "# alphabet size = 5-4\n".toList, "chr1\t5\t6\t\n".toList, "chr1\t6\t7\t\n".toList,
        "chr1\t7\t8\t\n".toList] ()) := by
  rw [bwtool_sax_render sample_ext args_reversed (by decide) sample_region [] rfl]
  have hseq : args_reversed.seq = false := by decide
  have e0 : args_reversed.addWigOut = false := rfl
  have e1 : to_int args_reversed.itStart = 5 := by decide
  have e2 : to_int args_reversed.itEnd = 4 := by decide
  have e3 : to_int args_reversed.window = 0 := by decide
  have e5 : args_reversed.header2 = "# alphabet size = 5-4\n".toList := by decide
  have hfit : IntFits 5 4 := by unfold IntFits; decide
  have hread : ∀ pbw ∈ sample_ext.perBaseWigLoadContinue sample_region,
      Readable sample_ext 5 4 0 args_reversed.meanVal args_reversed.stdVal pbw := by
    intro pbw hp a h1 h2
    omega
  simp only [render_sections, hseq, Bool.false_eq_true, if_false]
  rw [e0, e1, e2, e3, e5, wigsax_bed4_plain_spec sample_ext _ sample_region 5 4 0 _ _ hfit
    (by decide) hread]
  decide

/-- C7 (as amended) on the sample command line with the range 5 to 4. -/
theorem bwtool_sax_reversed_range_witness :
    check_options args_reversed.mean.isSome args_reversed.std.isSome args_reversed.stdVal = none ∧
      args_reversed.itEnd < args_reversed.itStart ∧
      (bwtool_sax sample_ext args_reversed).file_opened = true ∧
      (∀ msg, bwtool_sax sample_ext args_reversed ≠ .config_error msg) ∧
      (args_reversed.sections ≠ [] →
        [header_created, header_range args_reversed.itStart args_reversed.itEnd] <+:
          (bwtool_sax sample_ext args_reversed).written) :=
  ⟨by decide, by decide,
    bwtool_sax_reversed_range sample_ext args_reversed (by decide) (by decide)⟩

theorem sample_fasta (alpha : Int) (mean std : Dbl) (c : Char) (hc : c ≠ NUL)
    (ha : Char.ofNat (96 + alpha.toNat) = c) (out : Stream) :
    wigsax_fasta sample_ext out sample_region alpha 0 mean std =
      .done (out ++ [">chr1:5-8\n".toList, [c, c, c, '\n']]) () := by
  have h : ∀ pbw ∈ sample_ext.perBaseWigLoadContinue sample_region,
      EncodesAs sample_ext alpha 0 mean std pbw [c, c, c] := by
    intro pbw hp
    rw [sample_load, List.mem_singleton] at hp
    subst hp
    refine ⟨rfl, ?_, List.replicate 59 NUL, by simp, ?_⟩
    · intro d hd
      simp only [List.mem_cons, List.mem_singleton, List.not_mem_nil, or_false, or_self] at hd
      rw [hd]
      exact hc
    · simp [sample_ext, sample_segment, ha, List.replicate]
  rw [wigsax_fasta, fasta_segments_spec sample_ext alpha 0 mean std (fun _ => [c, c, c]) _ out h,
    sample_load]
  have hw : wrapped [c, c, c] = [[c, c, c]] := by
    simp [wrapped, slice60, List.range_succ]
  have hh : fasta_header sample_segment = ">chr1:5-8\n".toList := by decide
  simp [fasta_text, hw, hh]

/-- C8 (counterexample): the positional alphabet size 1 is outside `[2, 20]`,
yet the run opens the output file, writes both header lines and renders the
region. -/
theorem bwtool_sax_size_one_runs :
    bwtool_sax sample_ext args_small =
      .opened (.done ["# created using wigsax version Sept2011.\n".toList,
        "# alphabet size = 1\n".toList, ">chr1:5-8\n".toList, "aaa\n".toList] ()) := by
  rw [bwtool_sax_render sample_ext args_small (by decide) sample_region [] rfl]
  have hseq : args_small.seq = true := by decide
  have e1 : args_small.alpha = 1 := by decide
  have e2 : to_int args_small.window = 0 := by decide
  have e5 : args_small.header2 = "# alphabet size = 1\n".toList := by decide
  simp only [render_sections, hseq, if_true]
  rw [e1, e2, e5, sample_fasta 1 _ _ 'a' (by decide) (by decide)]
  rfl

/-- C8 (as amended) on the sample command line with alphabet size 1. -/
theorem bwtool_sax_size_unchecked_witness :
    check_options args_small.mean.isSome args_small.std.isSome args_small.stdVal = none ∧
      args_small.alpha < 2 ∧
      (bwtool_sax sample_ext args_small).file_opened = true ∧
      (∀ msg, bwtool_sax sample_ext args_small ≠ .config_error msg) ∧
      (args_small.sections ≠ [] →
        [header_created,
          if args_small.seq then header_alpha args_small.alpha
          else header_range args_small.itStart args_small.itEnd] <+:
          (bwtool_sax sample_ext args_small).written) :=
  ⟨by decide, by decide,
    bwtool_sax_size_unchecked sample_ext args_small (by decide) (Or.inl (by decide))⟩

/-- C9 (counterexample): a run over one region writes two `#` lines, not one. -/
theorem bwtool_sax_two_comment_lines :
    bwtool_sax sample_ext sample_args =
        .opened (.done ["# created using wigsax version Sept2011.\n".toList,
          "# alphabet size = 8\n".toList, ">chr1:5-8\n".toList, "hhh\n".toList] ()) ∧
      comment_lines (bwtool_sax sample_ext sample_args) = 2 := by
  have h : bwtool_sax sample_ext sample_args =
      .opened (.done ["# created using wigsax version Sept2011.\n".toList,
        "# alphabet size = 8\n".toList, ">chr1:5-8\n".toList, "hhh\n".toList] ()) := by
    rw [bwtool_sax_render sample_ext sample_args (by decide) sample_region [] rfl]
    have hseq : sample_args.seq = true := by decide
    have e1 : sample_args.alpha = 8 := by decide
    have e2 : to_int sample_args.window = 0 := by decide
    have e5 : sample_args.header2 = "# alphabet size = 8\n".toList := by decide
    simp only [render_sections, hseq, if_true]
    rw [e1, e2, e5, sample_fasta 8 _ _ 'h' (by decide) (by decide)]
    rfl
  refine ⟨h, ?_⟩
  rw [h]
  decide

/-- C9 (as amended) on the sample command line with alphabet size 8. -/
theorem bwtool_sax_header_witness :
    check_options sample_args.mean.isSome sample_args.std.isSome sample_args.stdVal = none ∧
      sample_args.sections = [sample_region] ∧
      bwtool_sax sample_ext sample_args =
        .opened (render_sections sample_ext false true 8 8 8 0 neg_DBL_MAX (.finite 0 0)
          [sample_region] [header_created, header_alpha 8]) :=
  ⟨by decide, rfl,
    (bwtool_sax_header sample_ext sample_args (by decide) sample_region [] rfl).1⟩

set_option maxRecDepth 20000 in
/-- C1 (the code at the failing input): for a region of 130 bases whose symbol
string lies in a buffer of 131 bytes, `wigsax_fasta` writes the header line
and two lines of 60 symbols, then reads index 180 outside the buffer; the
third line, of 10 symbols, is not written.  The defect is the one of C10. -/
theorem wigsax_fasta_short_last_line :
    wigsax_fasta tight_ext [] region_130 8 0 .nan .nan =
      .halted [">chr1:0-130\n".toList, List.replicate 60 'a' ++ ['\n'],
        List.replicate 60 'a' ++ ['\n']] .outOfBounds := by
  have h := fasta_loop_overrun sample_130 (by decide) (by decide)
    (fprintf [] ">chr1:0-130\n".toList)
  have e : wigsax_fasta tight_ext [] region_130 8 0 .nan .nan =
      (match fasta_loop (sample_130.length : Int) 0 (sample_130 ++ [NUL])
          (fprintf [] ">chr1:0-130\n".toList) with
        | .halted o w => .halted o w
        | .done o _ => .done o ()) := by
    rfl
  rw [e, h]
  decide

/-- C2 (counterexample): for the range 0 to 2147483646, with every encoding
of the three-base segment holding three symbols `a` and its NUL, the `int`
name size `alphaE - alphaS + 2` overflows to a negative value, the allocator
refuses it and no record, hence no symbol field, is built. -/
theorem sweep_segment_wide_range_aborts :
    (0 : Int) ≤ 2147483646 ∧
      (∀ a : Int, encoding tight_ext sample_segment a 0 .nan .nan = ['a', 'a', 'a', NUL]) ∧
      wrap_int (wrap_int (2147483646 - 0) + 2) = -2147483648 ∧
      sweep_segment tight_ext sample_segment 0 2147483646 0 .nan .nan =
        .stop (.errAbort "needLargeMem: refused size") := by
  refine ⟨by decide, fun a => rfl, by decide, ?_⟩
  decide

/-- C3 (counterexample): for the range 5 to 3 the sample region loads one
segment of three bases, yet `wigsax_bed4` writes no row: the name size is 0
and the allocator refuses it. -/
theorem wigsax_bed4_reversed_range_no_rows :
    (sample_ext.perBaseWigLoadContinue sample_region).map seg_len = [3] ∧
      wigsax_bed4 sample_ext false [] sample_region 5 3 0 .nan .nan =
        .halted [] (.errAbort "needLargeMem: refused size") := by
  refine ⟨by decide, ?_⟩
  decide

set_option maxRecDepth 20000 in
/-- C10 (the code at the failing input): for a string of 130 symbols in a
buffer of 131 bytes the wrapping loop writes two lines and then, at `i = 120`,
reads index 180, which is outside the buffer. -/
theorem fasta_loop_overrun_130 :
    sample_130.length = 130 ∧ (sample_130 ++ [NUL]).length = 131 ∧
      (sample_130 ++ [NUL])[120 + 60]? = none ∧
      fasta_loop 130 0 (sample_130 ++ [NUL]) [] =
        .halted [List.replicate 60 'a' ++ ['\n'], List.replicate 60 'a' ++ ['\n']]
          .outOfBounds := by
  refine ⟨by decide, by decide, by decide, ?_⟩
  have h := fasta_loop_overrun sample_130 (by decide) (by decide) []
  have e : ((sample_130.length : Nat) : Int) = 130 := by decide
  rw [e] at h
  rw [h]
  decide

end Sax
